import Mathlib

/-!
Verification development for the trivial-jit repository: a shallow embedding
of `parser.py`, `trivial_jit.py`, `array_jit.py` and the reference evaluator
of `test_jit.py`.

Modelling conventions, used throughout:
* IEEE-754 doubles are modelled as exact rationals (`ℚ`); every arithmetic
  instruction the code generator emits (ADDSD, SUBSD, MULSD, DIVSD, SQRTSD,
  the XORPD sign-flip, and the `_POWSD` squaring loop) computes the exact
  real-number operation on doubles that the hardware rounds, so the model
  computes the same operation without the rounding.  `math.sqrt` (and
  `x ** 0.5`, which is the same correctly rounded square root) is an
  uninterpreted parameter `sqrtF : ℚ → ℚ` supplied to both evaluators.
* Fallible Python code (exceptions) is modelled with `Option`/`Except`.
* Python character classes (`\s`, `str.isdecimal`, `str.isidentifier`,
  `float()` literals) are modelled over ASCII; the source additionally
  accepts some Unicode forms and PEP-515 underscores that never occur in
  the expressions this development evaluates.
-/

/-! ## Tokens (`parser.py`, lines 6 and 13-21)

`eof` in the source is the sentinel set `{"eof"}`, distinct from every
string token; here it is a separate constructor. -/

inductive Token where
  | str (s : String)
  | eof
deriving DecidableEq, Repr

/-! ## Operator descriptors (`parser.py`, `class Op` and `OPS`)

The Python `Op` NamedTuple carries a fourth field, the semantic function
`fun`; two `Op` values are equal iff all their fields are, and in `OPS`
the symbol determines the function, so the model drops the field and
dispatches on the symbol where the source dispatches on `fun`. -/

inductive Assoc where
  | l | r | u
deriving DecidableEq, Repr

structure Op where
  op : String
  prec : Nat
  assoc : Assoc
deriving DecidableEq, Repr

def Op.left_first (self other : Op) : Bool :=
  self.prec > other.prec || (self.prec = other.prec && other.assoc = Assoc.l)

def Op.arity (o : Op) : Nat :=
  if o.assoc = Assoc.u then 1 else 2

/-- The seven entries built from `OP_GROUPS`:
`add+l sub~l / truediv/l mul*l / neg-u / pow^r / sqrt√u`,
with the precedence equal to the line number. -/
def opAdd : Op := ⟨"+", 0, Assoc.l⟩
def opSub : Op := ⟨"~", 0, Assoc.l⟩
def opDiv : Op := ⟨"/", 1, Assoc.l⟩
def opMul : Op := ⟨"*", 1, Assoc.l⟩
def opNeg : Op := ⟨"-", 2, Assoc.u⟩
def opPow : Op := ⟨"^", 3, Assoc.r⟩
def opSqrt : Op := ⟨"√", 4, Assoc.u⟩

def OPS : String → Option Op
  | "+" => some opAdd
  | "~" => some opSub
  | "/" => some opDiv
  | "*" => some opMul
  | "-" => some opNeg
  | "^" => some opPow
  | "√" => some opSqrt
  | _ => none

/-! ## AST nodes

A Python AST node is either a string leaf or a tuple
`(op, child, ...)`.  Tuples are only ever built by `Op.apply`, which
takes `min(arity, len(stack))` children with `arity ≤ 2`, so a tuple has
zero, one or two children (`(op,)` and the 1-child binary tuple arise
from dangling operators, e.g. `to_ast("1^")`); the three shapes are the
three `node` constructors. -/

inductive Ast where
  | leaf (s : String)
  | node0 (o : Op)
  | node1 (o : Op) (a : Ast)
  | node2 (o : Op) (a b : Ast)
deriving DecidableEq, Repr

deriving instance DecidableEq for Except

/-- `Op.apply`: `stack[-n:] = [(self,) + tuple(stack[-n:])]` where
`n = self.arity()`; Python's `stack[-n:]` silently takes the whole stack
when it is shorter than `n`.  Stacks grow at the head here (the head is
Python's list end), and `stack[-2:]` lists bottom-before-top. -/
def Op.apply (o : Op) (stack : List Ast) : List Ast :=
  if o.arity = 1 then
    match stack with
    | [] => [Ast.node0 o]
    | a :: rest => Ast.node1 o a :: rest
  else
    match stack with
    | [] => [Ast.node0 o]
    | [a] => [Ast.node1 o a]
    | b :: a :: rest => Ast.node2 o a b :: rest

/-! ## Character classes -/

/-- Python `\s` over ASCII. -/
def isWs (c : Char) : Bool :=
  c = ' ' || c = '\t' || c = '\n' || c = '\r' || c = '\x0b' || c = '\x0c'

def isDigit (c : Char) : Bool := '0' ≤ c && c ≤ '9'

def isAlpha (c : Char) : Bool :=
  ('a' ≤ c && c ≤ 'z') || ('A' ≤ c && c ≤ 'Z')

/-- `str.isdecimal` over ASCII. -/
def isdecimal (s : String) : Bool :=
  s ≠ "" && s.data.all isDigit

/-- `str.isidentifier` over ASCII. -/
def isidentifier (s : String) : Bool :=
  match s.data with
  | [] => false
  | c :: cs => (isAlpha c || c = '_') && cs.all (fun d => isAlpha d || isDigit d || d = '_')

/-! ## Python `float()` literals, exactly (`ℚ`-valued) -/

def digitsVal (ds : List Char) : Nat :=
  ds.foldl (fun a c => 10 * a + (c.toNat - 48)) 0

/-- Parse the part after an optional sign:
`digits ["." digits] | "." digits`, then `("e"|"E") [sign] digits`. -/
def pyFloatBody (cs : List Char) : Option ℚ := do
  let ip := cs.takeWhile isDigit
  let r1 := cs.dropWhile isDigit
  let (fp, r2) ←
    match r1 with
    | '.' :: r => some (r.takeWhile isDigit, r.dropWhile isDigit)
    | r => some (([] : List Char), r)
  if ip.isEmpty && fp.isEmpty then none
  else
    let mant : ℚ := mkRat (digitsVal ip * 10 ^ fp.length + digitsVal fp) (10 ^ fp.length)
    match r2 with
    | [] => some mant
    | 'e' :: r3 => pyFloatExp mant r3
    | 'E' :: r3 => pyFloatExp mant r3
    | _ => none
where
  pyFloatExp (mant : ℚ) (r : List Char) : Option ℚ :=
    let (neg, r') : Bool × List Char :=
      match r with
      | '+' :: r' => (false, r')
      | '-' :: r' => (true, r')
      | r' => (false, r')
    if r'.isEmpty || !r'.all isDigit then none
    else if neg then some (Rat.divInt mant.num (mant.den * 10 ^ digitsVal r'))
    else some (mkRat (mant.num * 10 ^ digitsVal r') mant.den)

/-- Python `float(s)` on a decimal literal, exact.  Leading/trailing
whitespace is stripped as `float` does.  `inf`/`nan` spellings are not
representable in `ℚ` and yield `none` (see `canonicalize_num` below). -/
def pyFloat (s : String) : Option ℚ :=
  let cs := ((s.data.dropWhile isWs).reverse.dropWhile isWs).reverse
  match cs with
  | '+' :: r => pyFloatBody r
  | '-' :: r => (pyFloatBody r).map Neg.neg
  | r => pyFloatBody r

/-! ## `canonicalize_num` (`parser.py`, lines 9-10)

`repr(integer if (integer := int(num)) == num else num)`: an integral
value prints as Python's arbitrary-precision integer, otherwise as the
float repr.  The float repr of a double is its shortest round-tripping
decimal; on the exact rationals of this model that is the terminating
decimal expansion, in scientific notation exactly when Python uses it
(magnitude below 1e-4 or at least 1e16), with a two-digit exponent. -/

/-- Multiplicity of `p` in `n` (`fuel`-structured so that the kernel can
evaluate it; `fuel = n` always suffices). -/
def maxPowDivF (fuel p n : Nat) : Nat :=
  match fuel with
  | 0 => 0
  | fuel + 1 => if 2 ≤ p ∧ 0 < n ∧ n % p = 0 then maxPowDivF fuel p (n / p) + 1 else 0

def maxPowDiv (p n : Nat) : Nat := maxPowDivF n p n

def floatRepr (q : ℚ) : String :=
  let sgn := if q.num < 0 then "-" else ""
  let k := max (maxPowDiv 2 q.den) (maxPowDiv 5 q.den)
  let n : Nat := q.num.natAbs * 10 ^ k / q.den
  let ds := toString n
  let d := ds.length
  let exp10 : ℤ := (d : ℤ) - 1 - (k : ℤ)
  if -4 ≤ exp10 && exp10 < 16 then
    if (k : ℤ) < (d : ℤ) then
      sgn ++ (ds.take (d - k)) ++ "." ++ (ds.drop (d - k))
    else
      sgn ++ "0." ++ String.mk (List.replicate (k - d) '0') ++ ds
  else
    let mant := if d = 1 then ds else ds.take 1 ++ "." ++ ds.drop 1
    let e := exp10.natAbs
    let es := if e < 10 then "0" ++ toString e else toString e
    sgn ++ mant ++ "e" ++ (if exp10 < 0 then "-" else "+") ++ es

def canonicalize_num (q : ℚ) : String :=
  if q.den = 1 then toString q.num else floatRepr q

/-! ## The lexer (`parser.py`, `lex`)

`re.split` with `r"\s*(>=|=<|<=|=>|[(){}*/^<>=\[\]]|(?<![0-9.][eE])[+-])\s*"`:
the scanner walks the string once; at each position it tries, in the
pattern's order, the two-character operators, the single-character class,
and `+`/`-` guarded by the negative lookbehind `(?<![0-9.][eE])` on the
two previously consumed characters.  The `\s*` on both sides of the group
absorbs the whitespace around a match into the match.  Pieces between
matches are the non-operator tokens; empty pieces are dropped (`if tok:`),
each surviving piece is canonicalized through `float` when it parses. -/

def opSingleChar (c : Char) : Bool :=
  c = '(' || c = ')' || c = '\x7b' || c = '\x7d' || c = '*' || c = '/' ||
  c = '^' || c = '<' || c = '>' || c = '=' || c = '[' || c = ']'

/-- The lookbehind `(?<![0-9.][eE])` *blocks* a `+`/`-` match when the two
preceding characters are a digit-or-dot followed by `e`/`E`. -/
def lookbehindBlocked (p2 p1 : Option Char) : Bool :=
  match p2, p1 with
  | some b, some a => (isDigit b || b = '.') && (a = 'e' || a = 'E')
  | _, _ => false

/-- The single-character match attempt (the last two regex alternatives):
the character class, then `+`/`-` guarded by the lookbehind. -/
def opHere1 (p2 p1 : Option Char) (c : Char) (r : List Char) : Option (String × List Char) :=
  if opSingleChar c then some (String.mk [c], r)
  else if (c = '+' || c = '-') && !lookbehindBlocked p2 p1 then some (String.mk [c], r)
  else none

/-- Try to match the operator group at the current position; `p2`, `p1`
are the two characters before the position.  Returns the matched text
and the remaining characters.  Alternatives are tried in the pattern's
order: the two-character operators first. -/
def opHere (p2 p1 : Option Char) (cs : List Char) : Option (String × List Char) :=
  match cs with
  | c :: d :: r =>
    if c = '>' && d = '=' then some (">=", r)
    else if c = '=' && d = '<' then some ("=<", r)
    else if c = '<' && d = '=' then some ("<=", r)
    else if c = '=' && d = '>' then some ("=>", r)
    else opHere1 p2 p1 c (d :: r)
  | [c] => opHere1 p2 p1 c []
  | [] => none

/-- Skip whitespace, updating the two-character lookbehind window. -/
def skipWs : Option Char → Option Char → List Char → Option Char × Option Char × List Char
  | _, p1, [] => (p1, none, [])
  | p2, p1, c :: cs => if isWs c then skipWs p1 (some c) cs else (p2, p1, c :: cs)

/-- Slide the lookbehind window over consumed characters. -/
def slideWin (p2 p1 : Option Char) : List Char → Option Char × Option Char
  | [] => (p2, p1)
  | c :: cs => slideWin p1 (some c) cs

/-- `re.split` on the operator pattern: returns the list of pieces and
operator texts, in order.  `acc` holds the current piece reversed.
Each step consumes at least one character, so `fuel = input.length`
always suffices (fuel keeps the recursion structural for the kernel). -/
def splitLoopF (fuel : Nat) (acc : List Char) (p2 p1 : Option Char) (input : List Char) :
    List String :=
  match fuel with
  | 0 => [String.mk acc.reverse]
  | fuel + 1 =>
    match input with
    | [] => [String.mk acc.reverse]
    | c :: cs =>
      match opHere p2 p1 (c :: cs) with
      | some (o, r) =>
        let piece := String.mk (acc.dropWhile isWs).reverse
        let w := slideWin p2 p1 o.data
        let z := skipWs w.1 w.2 r
        piece :: o :: splitLoopF fuel [] z.1 z.2.1 z.2.2
      | none => splitLoopF fuel (c :: acc) p1 (some c) cs

def pySplit (s : String) : List String :=
  splitLoopF s.data.length [] none none s.data

/-- `lex`: split, drop empty pieces, canonicalize numeric pieces, append
the `eof` sentinel.  (`float("inf")` would make `canonicalize_num` raise
`OverflowError` in the source; `pyFloat` returns `none` there, so the
model yields the raw token instead — no claim depends on infinite
literals.) -/
def lex (s : String) : List Token :=
  (((pySplit s).filter (· ≠ "")).map fun p =>
    Token.str (match pyFloat p with
      | some q => canonicalize_num q
      | none => p)) ++ [Token.eof]

/-! ## The parser (`parser.py`, `parse_expr` / `to_ast`)

The token stream is a list; the generator's `next(flat)` on an exhausted
stream (unclosed parenthesis) is the `StopIteration` error, and reaching
the `eof` sentinel when waiting for `")"` is the `TypeError` the source
raises from `OPS.get(eof)` on the unhashable set.  The operand and
operator stacks grow at the head. -/

def popLoop (o : Op) : List Op → List Ast → List Op × List Ast
  | [], es => ([], es)
  | p :: ps, es => if p.left_first o then popLoop o ps (p.apply es) else (p :: ps, es)

/-- The shunting-yard loop.  One token is consumed per step and the
parenthesis case re-enters the loop on the returned remainder, which is
shorter, so `fuel = ts.length` always suffices (fuel keeps the recursion
structural; running out of fuel coincides with `StopIteration` on an
empty stream and is unreachable with adequate fuel). -/
def parseF (fuel : Nat) (ts : List Token) (waitfor : Token) (exprs : List Ast)
    (ops : List Op) (lastOp : Bool) : Except String (Ast × List Token) :=
  match fuel with
  | 0 => .error "StopIteration"
  | fuel + 1 =>
    match ts with
    | [] => .error "StopIteration"
    | x :: rest =>
      if x = waitfor then
        match ops.foldl (fun es o => o.apply es) exprs with
        | [a] => .ok (a, rest)
        | _ => .error "ValueError: not exactly one operand left"
      else
        match x with
        | .eof => .error "TypeError: unhashable type"
        | .str s =>
          match OPS s with
          | some o =>
            if lastOp then
              if o.assoc = Assoc.u then
                parseF fuel rest waitfor exprs (o :: ops) true
              else .error "AssertionError"
            else
              let o2 := if s = "-" then opSub else o
              let st := popLoop o2 ops exprs
              parseF fuel rest waitfor st.2 (o2 :: st.1) true
          | none =>
            if s = "(" then
              match parseF fuel rest (.str ")") [] [] true with
              | .error e => .error e
              | .ok (sub, rest') => parseF fuel rest' waitfor (sub :: exprs) ops false
            else
              parseF fuel rest waitfor (.leaf s :: exprs) ops false

def parse_expr (ts : List Token) (waitfor : Token) : Except String (Ast × List Token) :=
  parseF ts.length ts waitfor [] [] true

def to_ast (s : String) : Except String Ast :=
  (parse_expr (lex s) Token.eof).map (·.1)

/-! ## Kernel-evaluable rational arithmetic

The library's `Rat` arithmetic is `@[irreducible]`; these wrappers
compute the same operations through `mkRat`/`Rat.divInt` (which the
kernel evaluates) and are bridged to the ordinary operations below.
All model code uses the wrappers; all proofs use the bridges. -/

def qadd (a b : ℚ) : ℚ := mkRat (a.num * b.den + b.num * a.den) (a.den * b.den)

def qsub (a b : ℚ) : ℚ := mkRat (a.num * b.den - b.num * a.den) (a.den * b.den)

def qmul (a b : ℚ) : ℚ := mkRat (a.num * b.num) (a.den * b.den)

def qdiv (a b : ℚ) : ℚ := Rat.divInt (a.num * b.den) (a.den * b.num)

def qinv (a : ℚ) : ℚ := Rat.divInt (a.den : Int) a.num

def qpowN (a : ℚ) : Nat → ℚ
  | 0 => 1
  | n + 1 => qmul (qpowN a n) a

@[simp] lemma qadd_eq (a b : ℚ) : qadd a b = a + b := (Rat.add_def' a b).symm

@[simp] lemma qsub_eq (a b : ℚ) : qsub a b = a - b := (Rat.sub_def' a b).symm

@[simp] lemma qmul_eq (a b : ℚ) : qmul a b = a * b := by
  rw [Rat.mul_def]
  unfold qmul
  rw [Rat.mkRat_def]
  simp

@[simp] lemma qdiv_eq (a b : ℚ) : qdiv a b = a / b := by rw [Rat.div_def']; rfl

@[simp] lemma qinv_eq (a : ℚ) : qinv a = a⁻¹ := (Rat.inv_def a).symm

@[simp] lemma qpowN_eq (a : ℚ) (n : Nat) : qpowN a n = a ^ n := by
  induction n with
  | zero => simp [qpowN]
  | succ n ih => simp [qpowN, ih, pow_succ]

/-! ## Free variables (`trivial_jit.py`, `free_vars`) and `sorted`

`free_vars` builds a `frozenset` from the identifier leaves, collected
left-to-right; callers that need a deterministic order apply `sorted`.
`sorted` on strings compares code points left-to-right, modelled by
`strLtB`; `sortStr` is insertion sort that also drops duplicates, so
`sortStr (free_vars_list t)` is exactly `sorted(free_vars(t))`. -/

def free_vars_list : Ast → List String
  | .leaf s => if isidentifier s then [s] else []
  | .node0 _ => []
  | .node1 _ a => free_vars_list a
  | .node2 _ a b => free_vars_list a ++ free_vars_list b

def strLtLB : List Char → List Char → Bool
  | [], [] => false
  | [], _ :: _ => true
  | _ :: _, [] => false
  | c :: cs, d :: ds =>
    if c.toNat < d.toNat then true
    else if d.toNat < c.toNat then false
    else strLtLB cs ds

def strLtB (a b : String) : Bool := strLtLB a.data b.data

def insortStr (s : String) : List String → List String
  | [] => [s]
  | t :: ts => if s = t then t :: ts else if strLtB s t then s :: t :: ts else t :: insortStr s ts

def sortStr (l : List String) : List String := l.foldr insortStr []

def sorted_free_vars (t : Ast) : List String := sortStr (free_vars_list t)

/-- `dict(zip(names, vals))` lookup (`zip` truncates at the shorter list). -/
def zipLookup : List String → List ℚ → String → Option ℚ
  | n :: ns, v :: vs, s => if s = n then some v else zipLookup ns vs s
  | _, _, _ => none

/-! ## The reference tree-interpreter (`test_jit.py`, `naive_evaluator`)

`eval_expr` on a leaf looks the name up in the environment, else calls
`float` on it; on a tuple it evaluates the children left-to-right and
applies the operator's semantic function.  Exceptional outcomes —
`ZeroDivisionError` (handled as IEEE ±∞/NaN by `handle_zero_div`),
complex results (`TypeError` → NaN), `OverflowError` (→ NaN) — are all
values outside `ℚ` and are modelled as `none`; the claims quantify over
the runs that stay inside the finite reals.  The square-root semantic
(`math.sqrt`, and `x ** 0.5` which is the same correctly rounded value)
is the parameter `sqrtF`, defined on nonnegative arguments. -/

def pyPow (sqrtF : ℚ → ℚ) (x y : ℚ) : Option ℚ :=
  if y.den = 1 then
    if 0 ≤ y.num then some (qpowN x y.num.toNat)
    else if x = 0 then none
    else some (qinv (qpowN x (-y.num).toNat))
  else if y = mkRat 1 2 then
    if x.num < 0 then none
    else some (sqrtF x)
  else none

def naiveApply1 (sqrtF : ℚ → ℚ) (o : Op) (x : ℚ) : Option ℚ :=
  match o.op with
  | "-" => some (-x)
  | "√" => if x.num < 0 then none else some (sqrtF x)
  | _ => none

def naiveApply2 (sqrtF : ℚ → ℚ) (o : Op) (x y : ℚ) : Option ℚ :=
  match o.op with
  | "+" => some (qadd x y)
  | "~" => some (qsub x y)
  | "*" => some (qmul x y)
  | "/" => if y = 0 then none else some (qdiv x y)
  | "^" => pyPow sqrtF x y
  | _ => none

def evalNaive (sqrtF : ℚ → ℚ) (env : String → Option ℚ) : Ast → Option ℚ
  | .leaf s =>
    match env s with
    | some v => some v
    | none => pyFloat s
  | .node0 _ => none
  | .node1 o a => do
    let x ← evalNaive sqrtF env a
    naiveApply1 sqrtF o x
  | .node2 o a b => do
    let x ← evalNaive sqrtF env a
    let y ← evalNaive sqrtF env b
    naiveApply2 sqrtF o x y

/-- `naive_evaluator(expr)(vals...)`: the environment is
`dict(zip(sorted(free_vars(expr)), args))`. -/
def naive_call (sqrtF : ℚ → ℚ) (t : Ast) (vals : List ℚ) : Option ℚ :=
  evalNaive sqrtF (zipLookup (sorted_free_vars t) vals) t

/-! ## The lowering pass (`trivial_jit.py`, `simplify_expr`)

Fallible (`ValueError` on unsupported exponents, `IndexError` on a
0-tuple unary minus) hence `Option`-valued.  The recursion in the
negative-exponent case re-simplifies an already-simplified base, which
is not structural; `fuel` decrements on every call and every theorem
below quantifies over it, so every terminating run of the source is
covered by some fuel. -/

def isLeafLit : Ast → Bool
  | .leaf s => !(isidentifier s)
  | _ => false

def litStr : Ast → String
  | .leaf s => s
  | _ => ""

def startsDash (s : String) : Bool := s.data.head? = some '-'

def dropHead (s : String) : String := String.mk s.data.tail

def simplifyF (fuel : Nat) : Ast → Option Ast :=
  match fuel with
  | 0 => fun _ => none
  | fuel + 1 => fun t =>
    match t with
    | .leaf s => some (.leaf s)
    | .node0 o =>
      if o = opNeg then none          -- args[0]: IndexError
      else if o = opPow then none     -- b, e = ...: ValueError
      else some (.node0 o)
    | .node1 o a =>
      if o = opNeg && isLeafLit a then some (.leaf ("-" ++ litStr a))
      else if o = opPow then none     -- b, e = ...: ValueError
      else (simplifyF fuel a).map (Ast.node1 o)
    | .node2 o a b =>
      if o = opNeg && isLeafLit a then some (.leaf ("-" ++ litStr a))
      else if o = opPow then do
        let bl ← simplifyF fuel a
        let e ← simplifyF fuel b
        match e with
        | .leaf s =>
          if startsDash s then do
            let w ← simplifyF fuel (.node2 opPow bl (.leaf (dropHead s)))
            return .node2 opDiv (.leaf "1") w
          else if s = "0.5" then return .node1 opSqrt bl
          else if s = "2" then return .node2 opMul bl bl
          else if s = "1" then return bl
          else if s = "0" then return .leaf "1"
          else if isdecimal s then return .node2 o a b   -- the ORIGINAL node, children unlowered
          else none                   -- ValueError: cannot yet handle
        | _ => none                   -- ValueError: cannot yet handle
      else do
        let al ← simplifyF fuel a
        let bl ← simplifyF fuel b
        return .node2 o al bl

/-! ## Code generation (`trivial_jit.py`, `jit_expr` and the helpers)

Registers are virtual indices: XMM registers are allocated by a counter
(`XMMRegister()` in peachpy), general-purpose registers by a second
counter.  The environment binds an identifier to an operand: an XMM
register, or the memory operand `[reg_a]` used by the reduction loop.
The emitted stream is a list of instructions; `_NEGSD` expands to
loading the `-0.0` constant (numerically `0` in `ℚ`; the XORPD against
it flips the sign bit) into a fresh register and an XORPD, `_POWSD` is
kept as one macro-instruction whose semantics is the faithful
translation of its SHR/JNC/MULSD loop (below). -/

inductive Instr where
  | movC (dst : Nat) (c : ℚ)          -- MOVSD dst, Constant.float64(c)
  | movR (dst src : Nat)              -- MOVSD dst, src
  | movM (dst : Nat)                  -- MOVSD dst, [reg_a]
  | addsd (dst src : Nat)
  | subsd (dst src : Nat)
  | mulsd (dst src : Nat)
  | divsd (dst src : Nat)
  | xorpdNeg (dst src : Nat)          -- XORPD dst, src with src = -0.0: negates dst
  | sqrtsd (dst src : Nat)            -- SQRTSD dst, src (emitted as SQRTSD(x, x))
  | powsd (dst src : Nat) (cnt : Nat) -- the _POWSD block; cnt is its GP register
deriving DecidableEq, Repr

inductive Loc where
  | reg (n : Nat)
  | mem
deriving DecidableEq, Repr

structure CG where
  xmm : Nat
  gp : Nat
  code : List Instr
deriving DecidableEq, Repr

/-- `jit_expr(expr, env)`.  A leaf is materialized with `MOVSD` into a
fresh register (identifier: from its bound operand, `KeyError` if
unbound; literal: the `float()` of its text, `ValueError` if unparsable).
A tuple dispatches `ASM[raw_op.fun]` (the symbol determines `fun`); the
children are compiled in reversed order —
`[jit_expr(a) for a in raw_args[::-1]][::-1]` — so the RIGHT child's
code is emitted first, and the result stays in the first argument's
register.  Applying an instruction to the wrong number of operands is
the Python `TypeError`, hence `none`. -/
def jit_expr (env : String → Option Loc) : Ast → CG → Option (Nat × CG)
  | .leaf s, g =>
    let tmp := g.xmm
    if isidentifier s then
      match env s with
      | some (Loc.reg r) => some (tmp, ⟨g.xmm + 1, g.gp, g.code ++ [.movR tmp r]⟩)
      | some Loc.mem => some (tmp, ⟨g.xmm + 1, g.gp, g.code ++ [.movM tmp]⟩)
      | none => none
    else
      match pyFloat s with
      | some c => some (tmp, ⟨g.xmm + 1, g.gp, g.code ++ [.movC tmp c]⟩)
      | none => none
  | .node0 _, _ => none
  | .node1 o a, g => do
    let (r, g1) ← jit_expr env a g
    if o.op = "-" then
      let temp := g1.xmm
      return (r, ⟨g1.xmm + 1, g1.gp, g1.code ++ [.movC temp 0, .xorpdNeg r temp]⟩)
    else if o.op = "√" then return (r, ⟨g1.xmm, g1.gp, g1.code ++ [.sqrtsd r r]⟩)
    else none
  | .node2 o a b, g => do
    let (rb, g1) ← jit_expr env b g
    let (ra, g2) ← jit_expr env a g1
    if o.op = "+" then return (ra, ⟨g2.xmm, g2.gp, g2.code ++ [.addsd ra rb]⟩)
    else if o.op = "~" then return (ra, ⟨g2.xmm, g2.gp, g2.code ++ [.subsd ra rb]⟩)
    else if o.op = "*" then return (ra, ⟨g2.xmm, g2.gp, g2.code ++ [.mulsd ra rb]⟩)
    else if o.op = "/" then return (ra, ⟨g2.xmm, g2.gp, g2.code ++ [.divsd ra rb]⟩)
    else if o.op = "^" then return (ra, ⟨g2.xmm, g2.gp + 1, g2.code ++ [.powsd ra rb g2.gp]⟩)
    else none

/-! ## `_POWSD` semantics

```
CVTSD2SI(cnt, reg_y); TEST(cnt, cnt); MOVSD(reg_y, 1.0); JNZ(check)
MOVSD(reg_x, 1.0)
loop:  SHR(cnt, 1); JNC(even); MULSD(reg_y, reg_x)
even:  MULSD(reg_x, reg_x)
check: CMP(cnt, 1); JG(loop)
MULSD(reg_x, reg_y)
```
`CVTSD2SI` rounds to nearest (ties to even) and yields the sentinel
`-2^63` when out of range; `SHR`'s carry is the low bit before the
shift; `CMP/JG` is a signed comparison, so a negative count skips the
loop.  For `cnt = 0` the fall-through path squares `reg_x` after
setting it to `1.0`, ending with `x*y = 1`.  The loop body halves the
count each iteration, so `fuel = cnt` suffices. -/

def cvtsd2si (q : ℚ) : Int :=
  let n := q.num
  let d := (q.den : Int)
  let fl := n.fdiv d
  let r2 := 2 * (n - fl * d)
  let rnd :=
    if r2 < d then fl
    else if d < r2 then fl + 1
    else if fl % 2 = 0 then fl else fl + 1
  if rnd < -(2 ^ 63) || 2 ^ 63 ≤ rnd then -(2 ^ 63) else rnd

def powsdLoopF (fuel : Nat) (cnt : Nat) (x y : ℚ) : ℚ × ℚ :=
  match fuel with
  | 0 => (x, y)
  | fuel + 1 =>
    if 1 < cnt then
      powsdLoopF fuel (cnt / 2) (qmul x x) (if cnt % 2 = 1 then qmul y x else y)
    else (x, y)

/-- Final values `(reg_x, reg_y)` of the `_POWSD` block on base `b` and
converted count `n`. -/
def powsdSem (b : ℚ) (n : Int) : ℚ × ℚ :=
  if n = 0 then (qmul (qmul 1 1) 1, 1)
  else
    let p := if 1 < n then powsdLoopF n.toNat n.toNat b 1 else (b, 1)
    (qmul p.1 p.2, p.2)

/-! ## Machine execution

A register file maps XMM indices to values; `m` is the value currently
addressed by the memory operand `[reg_a]`.  Division by zero, square
root of a negative and the other IEEE special-value producers leave `ℚ`
and poison the run (`none`), matching the `none`s of the reference
evaluator's exceptional paths. -/

def execI (sqrtF : ℚ → ℚ) (m : ℚ) (f : Nat → ℚ) : Instr → Option (Nat → ℚ)
  | .movC d c => some (Function.update f d c)
  | .movR d s => some (Function.update f d (f s))
  | .movM d => some (Function.update f d m)
  | .addsd d s => some (Function.update f d (qadd (f d) (f s)))
  | .subsd d s => some (Function.update f d (qsub (f d) (f s)))
  | .mulsd d s => some (Function.update f d (qmul (f d) (f s)))
  | .divsd d s => if f s = 0 then none else some (Function.update f d (qdiv (f d) (f s)))
  | .xorpdNeg d _ => some (Function.update f d (-(f d)))
  | .sqrtsd d s => if (f s).num < 0 then none else some (Function.update f d (sqrtF (f s)))
  | .powsd d s _ =>
    let p := powsdSem (f d) (cvtsd2si (f s))
    some (Function.update (Function.update f s p.2) d p.1)

def execCode (sqrtF : ℚ → ℚ) (m : ℚ) : List Instr → (Nat → ℚ) → Option (Nat → ℚ)
  | [], f => some f
  | i :: is, f => do execCode sqrtF m is (← execI sqrtF m f i)

/-! ## `jit_fun` / `jit_evaluator` (`trivial_jit.py`, lines 138-169)

`jit_fun` allocates one XMM register per argument name (indices
`0 .. n-1`), loads the arguments into them, compiles the lowered body
with the environment binding each name to its register, and returns the
result register's value.  `jit_evaluator` passes the free variables in
sorted order.  `fuel` is the lowering pass's budget (see `simplifyF`). -/

def idxOf (s : String) : List String → Option Nat
  | [] => none
  | t :: ts => if t = s then some 0 else (idxOf s ts).map (· + 1)

def jit_fun (sqrtF : ℚ → ℚ) (fuel : Nat) (arg_names : List String) (body : Ast)
    (vals : List ℚ) : Option ℚ := do
  if sortStr arg_names = sorted_free_vars body then   -- assert frozenset(arg_names) == free_vars
    let u ← simplifyF fuel body
    let env : String → Option Loc := fun s => (idxOf s arg_names).map Loc.reg
    let (r, g) ← jit_expr env u ⟨arg_names.length, 0, []⟩
    let f ← execCode sqrtF 0 g.code (fun i => (vals.getD i 0))
    return f r
  else none

def jit_evaluator (sqrtF : ℚ → ℚ) (fuel : Nat) (t : Ast) (vals : List ℚ) : Option ℚ :=
  jit_fun sqrtF fuel (sorted_free_vars t) t vals

/-! ## The reduction loop (`array_jit.py`, `down_under` / `array_reducer`)

`down_under(cnt)` emits `SUB(cnt, 1); JB(end)` before the body and
`SUB(cnt, 1); JNB(begin)` after it: `JB`/`JNB` test the carry flag, an
*unsigned* borrow, so the loop runs exactly `u` times where `u` is the
64-bit register value read as unsigned — `LOAD.ARGUMENT` of the signed
`int64` count stores its two's-complement pattern, so
`u = count mod 2^64`. -/

def down_under_iters (count : Int) : Nat := (count % (2 : Int) ^ 64).toNat

/-- One pass per iteration: execute the compiled body with the memory
operand at `buf idx`, `MOVSD(reg_acc, last_reg)`, `ADD(reg_a, 8)`. -/
def reduceLoop (sqrtF : ℚ → ℚ) (code : List Instr) (r : Nat) (buf : Nat → ℚ) :
    Nat → (Nat → ℚ) → Nat → Option ((Nat → ℚ) × Nat)
  | 0, f, idx => some (f, idx)
  | n + 1, f, idx => do
    let f' ← execCode sqrtF (buf idx) code f
    reduceLoop sqrtF code r buf n (Function.update f' 0 (f' r)) (idx + 1)

/-- `array_reducer(name, vars, expr)` then calling the compiled function
with `(init, count, buf)`.  `reg_acc` is XMM register 0 (allocated
before `jit_expr` runs); `cnt` and `reg_a` take the two GP indices.  The
two free variables are bound to `(reg_acc, [reg_a])` — the source zips
them out of a `frozenset`, here they are the explicit parameters
`vAcc, vElt`.  Returns the result value and the number of loop
iterations executed (each iteration reads one buffer element). -/
def array_reducer_run (sqrtF : ℚ → ℚ) (vAcc vElt : String) (body : Ast) (ini : ℚ)
    (count : Int) (buf : Nat → ℚ) : Option (ℚ × Nat) := do
  if vAcc ≠ vElt ∧ sorted_free_vars body = sortStr [vAcc, vElt] then  -- assert len(op_args) == 2
    let env : String → Option Loc :=
      fun s => if s = vAcc then some (Loc.reg 0) else if s = vElt then some Loc.mem else none
    let (r, g) ← jit_expr env body ⟨1, 2, []⟩
    let iters := down_under_iters count
    let f0 : Nat → ℚ := Function.update (fun _ => 0) 0 ini
    let (fend, _) ← reduceLoop sqrtF g.code r buf iters f0 0
    return (fend 0, iters)
  else none

/-! # Claims -/

/-- C2: the parser groups same-precedence left-associative operators to
the left and the right-associative power operator to the right, and
binds unary minus looser than power: `1 * 2 * 3` parses as `(1*2)*3`,
`1 / 2 / 3` as `(1/2)/3`, `1^2^3` as `1^(2^3)` and not `(1^2)^3`, and
`-1^2` as `-(1^2)`. -/
theorem C2_precedence_associativity :
    to_ast "1 * 2 * 3" =
      .ok (.node2 opMul (.node2 opMul (.leaf "1") (.leaf "2")) (.leaf "3")) ∧
    to_ast "1 / 2 / 3" =
      .ok (.node2 opDiv (.node2 opDiv (.leaf "1") (.leaf "2")) (.leaf "3")) ∧
    to_ast "1^2^3" =
      .ok (.node2 opPow (.leaf "1") (.node2 opPow (.leaf "2") (.leaf "3"))) ∧
    to_ast "1^2^3" ≠
      .ok (.node2 opPow (.node2 opPow (.leaf "1") (.leaf "2")) (.leaf "3")) ∧
    to_ast "-1^2" =
      .ok (.node1 opNeg (.node2 opPow (.leaf "1") (.leaf "2"))) :=
  ⟨by decide, by decide, by decide, by decide, by decide⟩

/-- C1 (failing input): the claim that the jit-compiled function always
matches the reference tree-interpreter outside the zero-division/power
edge set fails on `(x^-2)^3`: the lowering pass's decimal-exponent case
returns the original power node with its base unlowered, so codegen
emits `_POWSD` for the inner `x^-2`, whose signed `CMP/JG` skips the
loop for the converted count `-2` and yields `x`; the compiled function
computes `x^3 = 8` at `x = 2` where the reference interpreter computes
`x^-6 = 1/64` — far beyond any 1e-6 tolerance, on an input with no zero
division and no zero base. -/
theorem C1_jit_vs_naive_failing_input :
    to_ast "(x^-2)^3" =
      .ok (.node2 opPow
            (.node2 opPow (.leaf "x") (.node1 opNeg (.leaf "2"))) (.leaf "3")) ∧
    jit_evaluator (fun _ => 0) 9
      (.node2 opPow
        (.node2 opPow (.leaf "x") (.node1 opNeg (.leaf "2"))) (.leaf "3")) [2] = some 8 ∧
    naive_call (fun _ => 0)
      (.node2 opPow
        (.node2 opPow (.leaf "x") (.node1 opNeg (.leaf "2"))) (.leaf "3")) [2] =
      some (mkRat 1 64) ∧
    (8 : ℚ) ≠ mkRat 1 64 :=
  ⟨by decide, by decide, by decide, by decide⟩

/-- C4 (failing input): lowering a power node whose exponent lowers to a
decimal-integer text returns the *original* node — `return expr` — with
the base still unlowered, not a power node whose base is the lowered
base `b` as claimed: on `(x^-2)^3` the inner base lowers to `1/(x*x)`,
yet the result of lowering the whole node keeps the raw `x^-2` base. -/
theorem C4_decimal_case_keeps_unlowered_base :
    simplifyF 9
      (.node2 opPow
        (.node2 opPow (.leaf "x") (.node1 opNeg (.leaf "2"))) (.leaf "3")) =
      some (.node2 opPow
        (.node2 opPow (.leaf "x") (.node1 opNeg (.leaf "2"))) (.leaf "3")) ∧
    simplifyF 9 (.node2 opPow (.leaf "x") (.node1 opNeg (.leaf "2"))) =
      some (.node2 opDiv (.leaf "1") (.node2 opMul (.leaf "x") (.leaf "x"))) ∧
    (Ast.node2 opPow
        (.node2 opPow (.leaf "x") (.node1 opNeg (.leaf "2"))) (.leaf "3")) ≠
      (Ast.node2 opPow
        (.node2 opDiv (.leaf "1") (.node2 opMul (.leaf "x") (.leaf "x"))) (.leaf "3")) :=
  ⟨by decide, by decide, by decide⟩

/-- C9 (counterexample): lexing an unrecognized character sequence does
not fail — `float()`'s `ValueError` is caught and the raw text is
yielded as an ordinary token; the parser then even accepts it as an
operand leaf. -/
theorem C9_counterexample_junk_is_a_token :
    lex "$" = [Token.str "$", Token.eof] ∧
    lex "1 $ 2" = [Token.str "1 $ 2", Token.eof] ∧
    to_ast "$" = .ok (.leaf "$") :=
  ⟨by decide, by decide, by decide⟩

/-- C9 (amended): an input in which no position matches the operator
pattern and whose text does not parse as a number is lexed, without any
error, into exactly that text as one token (plus the end marker). -/
theorem C9_amended_lex_never_fails (s : String)
    (hsplit : pySplit s = [s]) (hnum : pyFloat s = none) (hne : s ≠ "") :
    lex s = [Token.str s, Token.eof] := by
  unfold lex
  rw [hsplit]
  simp [List.filter, hne, hnum]

/-- C9 (witness). -/
theorem C9_amended_witness : lex "$" = [Token.str "$", Token.eof] :=
  C9_amended_lex_never_fails "$" (by decide) (by decide) (by decide)

/-- C7 (counterexample): compiling `3 - 4` emits the load of the RIGHT
child's constant `4.0` first — `jit_expr` maps over `raw_args[::-1]` —
so the instruction stream is not the claimed left-then-right order
(which would load `3.0` into the first fresh register). -/
theorem C7_counterexample_right_child_first :
    jit_expr (fun _ => none) (.node2 opSub (.leaf "3") (.leaf "4")) ⟨0, 0, []⟩ =
      some (1, ⟨2, 0, [.movC 0 4, .movC 1 3, .subsd 1 0]⟩) ∧
    [Instr.movC 0 4, Instr.movC 1 3, Instr.subsd 1 0] ≠
      [Instr.movC 0 3, Instr.movC 1 4, Instr.subsd 0 1] :=
  ⟨by decide, by decide⟩

/-- C8 (counterexample): lowering is not idempotent: the unary-minus-of-
literal fold fires only once per pass, so `-(-(1))` lowers to `-( "-1")`
and lowering that again folds to the leaf `"--1"`. -/
theorem C8_counterexample_not_idempotent :
    simplifyF 9 (.node1 opNeg (.node1 opNeg (.leaf "1"))) =
      some (.node1 opNeg (.leaf "-1")) ∧
    simplifyF 9 (.node1 opNeg (.leaf "-1")) = some (.leaf "--1") ∧
    Ast.node1 opNeg (.leaf "-1") ≠ Ast.leaf "--1" :=
  ⟨by decide, by decide, by decide⟩

/-- C7 (amended): for every binary node the code generator compiles the
RIGHT child first (starting from the incoming allocation state), then
the left child, then emits the binary operation consuming both and
leaving the result in the register produced for the LEFT child (`_POWSD`
additionally allocates a fresh general-purpose register for its count). -/
theorem C7_amended_right_to_left (env : String → Option Loc) (a b : Ast)
    (g g1 g2 : CG) (ra rb : Nat)
    (hb : jit_expr env b g = some (rb, g1))
    (ha : jit_expr env a g1 = some (ra, g2)) :
    jit_expr env (.node2 opAdd a b) g =
      some (ra, ⟨g2.xmm, g2.gp, g2.code ++ [.addsd ra rb]⟩) ∧
    jit_expr env (.node2 opSub a b) g =
      some (ra, ⟨g2.xmm, g2.gp, g2.code ++ [.subsd ra rb]⟩) ∧
    jit_expr env (.node2 opMul a b) g =
      some (ra, ⟨g2.xmm, g2.gp, g2.code ++ [.mulsd ra rb]⟩) ∧
    jit_expr env (.node2 opDiv a b) g =
      some (ra, ⟨g2.xmm, g2.gp, g2.code ++ [.divsd ra rb]⟩) ∧
    jit_expr env (.node2 opPow a b) g =
      some (ra, ⟨g2.xmm, g2.gp + 1, g2.code ++ [.powsd ra rb g2.gp]⟩) := by
  refine ⟨?_, ?_, ?_, ?_, ?_⟩ <;>
    simp [jit_expr, hb, ha, opAdd, opSub, opMul, opDiv, opPow]

/-- C7 (witness). -/
theorem C7_amended_witness :
    jit_expr (fun _ => none) (.node2 opMul (.leaf "3") (.leaf "4")) ⟨0, 0, []⟩ =
      some (1, ⟨2, 0, [.movC 0 4, .movC 1 3, .mulsd 1 0]⟩) := by
  have h := C7_amended_right_to_left (fun _ => none) (.leaf "3") (.leaf "4")
    ⟨0, 0, []⟩ ⟨1, 0, [.movC 0 4]⟩ ⟨2, 0, [.movC 0 4, .movC 1 3]⟩ 1 0
    (by decide) (by decide)
  simpa using h.2.2.1

/-! One-step unfolding equations for `simplifyF`. -/

lemma simplifyF_zero (t : Ast) : simplifyF 0 t = none := rfl

lemma simplifyF_leaf (fuel : Nat) (s : String) :
    simplifyF (fuel + 1) (.leaf s) = some (.leaf s) := rfl

lemma simplifyF_node0 (fuel : Nat) (o : Op) :
    simplifyF (fuel + 1) (.node0 o) =
      if o = opNeg then none else if o = opPow then none else some (.node0 o) := rfl

lemma simplifyF_node1 (fuel : Nat) (o : Op) (a : Ast) :
    simplifyF (fuel + 1) (.node1 o a) =
      if o = opNeg && isLeafLit a then some (.leaf ("-" ++ litStr a))
      else if o = opPow then none
      else (simplifyF fuel a).map (Ast.node1 o) := rfl

lemma simplifyF_node2 (fuel : Nat) (o : Op) (a b : Ast) :
    simplifyF (fuel + 1) (.node2 o a b) =
      if o = opNeg && isLeafLit a then some (.leaf ("-" ++ litStr a))
      else if o = opPow then
        (simplifyF fuel a).bind fun bl =>
        (simplifyF fuel b).bind fun e =>
        match e with
        | .leaf s =>
          if startsDash s then
            (simplifyF fuel (.node2 opPow bl (.leaf (dropHead s)))).bind
              (fun w => some (.node2 opDiv (.leaf "1") w))
          else if s = "0.5" then some (.node1 opSqrt bl)
          else if s = "2" then some (.node2 opMul bl bl)
          else if s = "1" then some bl
          else if s = "0" then some (.leaf "1")
          else if isdecimal s then some (.node2 o a b)
          else none
        | _ => none
      else
        (simplifyF fuel a).bind fun al =>
        (simplifyF fuel b).bind fun bl => some (.node2 o al bl) := by
  show _ = _
  rfl

set_option maxHeartbeats 800000 in
/-- Fuel monotonicity: a successful lowering stays successful (with the
same result) when the budget grows. -/
lemma simplifyF_mono : ∀ (fuel : Nat) (t u : Ast),
    simplifyF fuel t = some u → simplifyF (fuel + 1) t = some u := by
  intro fuel
  induction fuel with
  | zero => intro t u h; exact absurd h (by simp [simplifyF_zero])
  | succ fuel ih =>
    intro t u h
    match t with
    | .leaf s => exact h
    | .node0 o => exact h
    | .node1 o a =>
      rw [simplifyF_node1] at h ⊢
      by_cases c1 : (o = opNeg && isLeafLit a) = true
      · rwa [if_pos c1] at h ⊢
      · rw [if_neg c1] at h ⊢
        by_cases c2 : o = opPow
        · rwa [if_pos c2] at h ⊢
        · rw [if_neg c2] at h ⊢
          rcases Option.map_eq_some'.mp h with ⟨a', ha', rfl⟩
          rw [ih a a' ha']
          rfl
    | .node2 o a b =>
      rw [simplifyF_node2] at h ⊢
      by_cases c1 : (o = opNeg && isLeafLit a) = true
      · rwa [if_pos c1] at h ⊢
      · rw [if_neg c1] at h ⊢
        by_cases c2 : o = opPow
        · rw [if_pos c2] at h ⊢
          cases hbl : simplifyF fuel a with
          | none => rw [hbl] at h; exact absurd h (by simp)
          | some bl =>
            rw [hbl] at h
            rw [ih a bl hbl]
            cases hbe : simplifyF fuel b with
            | none => rw [hbe] at h; exact absurd h (by simp)
            | some e =>
              rw [hbe] at h
              rw [ih b e hbe]
              simp only [Option.some_bind] at h ⊢
              match e with
              | .node0 _ => exact h
              | .node1 _ _ => exact h
              | .node2 _ _ _ => exact h
              | .leaf s =>
                dsimp only at h ⊢
                by_cases d1 : startsDash s = true
                · rw [if_pos d1] at h ⊢
                  cases hw : simplifyF fuel (.node2 opPow bl (.leaf (dropHead s))) with
                  | none => rw [hw] at h; exact absurd h (by simp)
                  | some w =>
                    rw [hw] at h
                    rw [ih _ w hw]
                    exact h
                · rw [if_neg d1] at h ⊢
                  exact h
        · rw [if_neg c2] at h ⊢
          cases hal : simplifyF fuel a with
          | none => rw [hal] at h; exact absurd h (by simp)
          | some al =>
            rw [hal] at h
            rw [ih a al hal]
            cases hbl : simplifyF fuel b with
            | none => rw [hbl] at h; exact absurd h (by simp)
            | some bl =>
              rw [hbl] at h
              rw [ih b bl hbl]
              exact h

/-- No sub-term is a unary minus applied directly to a non-identifier
(literal) leaf — the redex of `simplify_expr`'s minus-folding rule. -/
def noNegFold : Ast → Bool
  | .leaf _ => true
  | .node0 _ => true
  | .node1 o a => !(o = opNeg && isLeafLit a) && noNegFold a
  | .node2 o a b => !(o = opNeg && isLeafLit a) && noNegFold a && noNegFold b

set_option maxHeartbeats 1600000 in
/-- C8 (amended): lowering an already-lowered AST is a no-op provided the
lowered AST contains no unary-minus node applied directly to a
non-identifier (literal) leaf; in general idempotence fails because that
fold fires only one level per pass (see the counterexample). -/
theorem C8_amended_idempotent_lowering (fuel : Nat) :
    ∀ (t u : Ast), simplifyF fuel t = some u → noNegFold u = true →
      simplifyF fuel u = some u := by
  induction fuel with
  | zero => intro t u h _; exact absurd h (by simp [simplifyF_zero])
  | succ fuel ih =>
    intro t u h hn
    match t with
    | .leaf s =>
      rw [simplifyF_leaf] at h
      injection h with h
      subst h
      exact simplifyF_leaf _ _
    | .node0 o =>
      rw [simplifyF_node0] at h
      by_cases c1 : o = opNeg
      · rw [if_pos c1] at h; exact absurd h (by simp)
      · rw [if_neg c1] at h
        by_cases c2 : o = opPow
        · rw [if_pos c2] at h; exact absurd h (by simp)
        · rw [if_neg c2] at h
          injection h with h
          subst h
          rw [simplifyF_node0, if_neg c1, if_neg c2]
    | .node1 o a =>
      rw [simplifyF_node1] at h
      by_cases c1 : (o = opNeg && isLeafLit a) = true
      · rw [if_pos c1] at h
        injection h with h
        subst h
        exact simplifyF_leaf _ _
      · rw [if_neg c1] at h
        by_cases c2 : o = opPow
        · rw [if_pos c2] at h; exact absurd h (by simp)
        · rw [if_neg c2] at h
          rcases Option.map_eq_some'.mp h with ⟨a', ha', rfl⟩
          simp only [noNegFold, Bool.and_eq_true, Bool.not_eq_true'] at hn
          rw [simplifyF_node1, if_neg (by simp [hn.1]), if_neg c2, ih a a' ha' hn.2]
          rfl
    | .node2 o a b =>
      rw [simplifyF_node2] at h
      by_cases c1 : (o = opNeg && isLeafLit a) = true
      · rw [if_pos c1] at h
        injection h with h
        subst h
        exact simplifyF_leaf _ _
      · rw [if_neg c1] at h
        by_cases c2 : o = opPow
        · rw [if_pos c2] at h
          cases hbl : simplifyF fuel a with
          | none => rw [hbl] at h; exact absurd h (by simp)
          | some bl =>
            rw [hbl] at h
            cases hbe : simplifyF fuel b with
            | none => rw [hbe] at h; exact absurd h (by simp)
            | some e =>
              rw [hbe] at h
              simp only [Option.some_bind] at h
              match e, hbe with
              | .node0 _, hbe => exact absurd h (by simp)
              | .node1 _ _, hbe => exact absurd h (by simp)
              | .node2 _ _ _, hbe => exact absurd h (by simp)
              | .leaf s, hbe =>
                dsimp only at h
                have hfz : fuel ≠ 0 := by
                  intro h0
                  rw [h0, simplifyF_zero] at hbl
                  exact Option.noConfusion hbl
                obtain ⟨f, rfl⟩ := Nat.exists_eq_succ_of_ne_zero hfz
                by_cases d1 : startsDash s = true
                · rw [if_pos d1] at h
                  cases hw : simplifyF (f + 1) (.node2 opPow bl (.leaf (dropHead s))) with
                  | none => rw [hw] at h; exact absurd h (by simp)
                  | some w =>
                    rw [hw] at h
                    simp only [Option.some_bind] at h
                    injection h with h
                    subst h
                    simp only [noNegFold, Bool.and_eq_true, Bool.not_eq_true'] at hn
                    rw [simplifyF_node2, if_neg (by simp [hn.1.1]), if_neg (by decide),
                      simplifyF_leaf, ih _ w hw hn.2]
                    rfl
                · rw [if_neg d1] at h
                  by_cases d2 : s = "0.5"
                  · rw [if_pos d2] at h
                    injection h with h
                    subst h
                    simp only [noNegFold, Bool.and_eq_true, Bool.not_eq_true'] at hn
                    rw [simplifyF_node1, if_neg (by simp [hn.1]), if_neg (by decide),
                      ih a bl hbl hn.2]
                    rfl
                  · rw [if_neg d2] at h
                    by_cases d3 : s = "2"
                    · rw [if_pos d3] at h
                      injection h with h
                      subst h
                      simp only [noNegFold, Bool.and_eq_true, Bool.not_eq_true'] at hn
                      rw [simplifyF_node2, if_neg (by simp [hn.1.1]), if_neg (by decide),
                        ih a bl hbl hn.2]
                      rfl
                    · rw [if_neg d3] at h
                      by_cases d4 : s = "1"
                      · rw [if_pos d4] at h
                        injection h with h
                        subst h
                        exact simplifyF_mono _ bl bl (ih a bl hbl hn)
                      · rw [if_neg d4] at h
                        by_cases d5 : s = "0"
                        · rw [if_pos d5] at h
                          injection h with h
                          subst h
                          exact simplifyF_leaf _ _
                        · rw [if_neg d5] at h
                          by_cases d6 : isdecimal s = true
                          · rw [if_pos d6] at h
                            injection h with h
                            subst h
                            rw [simplifyF_node2, if_neg c1, if_pos c2, hbl, hbe]
                            simp only [Option.some_bind]
                            rw [if_neg d1, if_neg d2, if_neg d3, if_neg d4, if_neg d5,
                              if_pos d6]
                          · rw [if_neg d6] at h
                            exact absurd h (by simp)
        · rw [if_neg c2] at h
          cases hal : simplifyF fuel a with
          | none => rw [hal] at h; exact absurd h (by simp)
          | some al =>
            rw [hal] at h
            cases hbl : simplifyF fuel b with
            | none => rw [hbl] at h; exact absurd h (by simp)
            | some bl =>
              rw [hbl] at h
              simp only [Option.some_bind] at h
              injection h with h
              subst h
              simp only [noNegFold, Bool.and_eq_true, Bool.not_eq_true'] at hn
              rw [simplifyF_node2, if_neg (by simp [hn.1.1]), if_neg c2,
                ih a al hal hn.1.2, ih b bl hbl hn.2]
              rfl

/-- C8 (witness). -/
theorem C8_amended_witness :
    simplifyF 5 (.node2 opMul (.leaf "2") (.leaf "3")) =
      some (.node2 opMul (.leaf "2") (.leaf "3")) :=
  C8_amended_idempotent_lowering 5 (.node2 opMul (.leaf "2") (.leaf "3"))
    (.node2 opMul (.leaf "2") (.leaf "3")) (by decide) (by decide)

/-- XMM registers written by an instruction (the `_POWSD` block also
writes its `cnt` general-purpose register, which lives in a separate
register class and cannot alias an XMM binding). -/
def Instr.writesX : Instr → List Nat
  | .movC d _ => [d]
  | .movR d _ => [d]
  | .movM d => [d]
  | .addsd d _ => [d]
  | .subsd d _ => [d]
  | .mulsd d _ => [d]
  | .divsd d _ => [d]
  | .xorpdNeg d _ => [d]
  | .sqrtsd d _ => [d]
  | .powsd d s _ => [d, s]

/-- Structure of a compilation: the result register is fresh, counters
only grow, the new code is appended, and every register written by the
new code was allocated during this compilation. -/
lemma jit_expr_shape : ∀ (t : Ast) (env : String → Option Loc) (g : CG) (r : Nat) (g' : CG),
    jit_expr env t g = some (r, g') →
    g.xmm ≤ r ∧ r < g'.xmm ∧ g.xmm ≤ g'.xmm ∧ g.gp ≤ g'.gp ∧
    ∃ c, g'.code = g.code ++ c ∧
      ∀ i ∈ c, ∀ d ∈ i.writesX, g.xmm ≤ d ∧ d < g'.xmm := by
  intro t
  induction t with
  | leaf s =>
    intro env g r g' h
    unfold jit_expr at h
    by_cases hid : isidentifier s = true
    · rw [if_pos hid] at h
      match henv : env s, h with
      | some (Loc.reg n), h =>
        have h := (h : some (g.xmm, (⟨g.xmm + 1, g.gp, g.code ++ [Instr.movR g.xmm n]⟩ : CG)) = some (r, g'))
        rw [Option.some.injEq, Prod.mk.injEq] at h
        obtain ⟨h1, h2⟩ := h
        subst h1; subst h2
        refine ⟨le_refl _, by simp, by simp, le_refl _, [.movR g.xmm n], rfl, ?_⟩
        intro i hi d hd
        simp only [List.mem_singleton] at hi
        subst hi
        simp only [Instr.writesX, List.mem_singleton] at hd
        subst hd
        exact ⟨le_refl _, by simp⟩
      | some Loc.mem, h =>
        have h := (h : some (g.xmm, (⟨g.xmm + 1, g.gp, g.code ++ [Instr.movM g.xmm]⟩ : CG)) = some (r, g'))
        rw [Option.some.injEq, Prod.mk.injEq] at h
        obtain ⟨h1, h2⟩ := h
        subst h1; subst h2
        refine ⟨le_refl _, by simp, by simp, le_refl _, [.movM g.xmm], rfl, ?_⟩
        intro i hi d hd
        simp only [List.mem_singleton] at hi
        subst hi
        simp only [Instr.writesX, List.mem_singleton] at hd
        subst hd
        exact ⟨le_refl _, by simp⟩
      | none, h => exact Option.noConfusion h
    · rw [if_neg hid] at h
      match hc : pyFloat s, h with
      | some c, h =>
        have h := (h : some (g.xmm, (⟨g.xmm + 1, g.gp, g.code ++ [Instr.movC g.xmm c]⟩ : CG)) = some (r, g'))
        rw [Option.some.injEq, Prod.mk.injEq] at h
        obtain ⟨h1, h2⟩ := h
        subst h1; subst h2
        refine ⟨le_refl _, by simp, by simp, le_refl _, [.movC g.xmm c], rfl, ?_⟩
        intro i hi d hd
        simp only [List.mem_singleton] at hi
        subst hi
        simp only [Instr.writesX, List.mem_singleton] at hd
        subst hd
        exact ⟨le_refl _, by simp⟩
      | none, h => exact Option.noConfusion h
  | node0 o =>
    intro env g r g' h
    exact absurd h (by simp [jit_expr])
  | node1 o a iha =>
    intro env g r g' h
    unfold jit_expr at h
    cases ha : jit_expr env a g with
    | none => rw [ha] at h; exact absurd h (by simp)
    | some p =>
      obtain ⟨ra, g1⟩ := p
      rw [ha] at h
      simp only [Option.pure_def, Option.bind_eq_bind, Option.some_bind] at h
      obtain ⟨h1, h2, h3, h4, ca, hca, hw⟩ := iha env g ra g1 ha
      by_cases ho1 : o.op = "-"
      · rw [if_pos ho1] at h
        rw [Option.some.injEq, Prod.mk.injEq] at h
        obtain ⟨hr, hg⟩ := h
        subst hr; subst hg
        refine ⟨h1, by simp; omega, by simp; omega, h4,
          ca ++ [.movC g1.xmm 0, .xorpdNeg ra g1.xmm], by simp [hca], ?_⟩
        intro i hi d hd
        simp only [List.mem_append, List.mem_cons, List.not_mem_nil, or_false] at hi
        rcases hi with hi | hi | hi
        · obtain ⟨hd1, hd2⟩ := hw i hi d hd
          exact ⟨hd1, by simp; omega⟩
        · subst hi
          simp only [Instr.writesX, List.mem_singleton] at hd
          subst hd
          exact ⟨h3, by simp⟩
        · subst hi
          simp only [Instr.writesX, List.mem_singleton] at hd
          subst hd
          exact ⟨h1, by simp; omega⟩
      · rw [if_neg ho1] at h
        by_cases ho2 : o.op = "√"
        rotate_right
        · rw [if_neg ho2] at h
          exact absurd h (by simp)
        rw [if_pos ho2] at h
        rw [Option.some.injEq, Prod.mk.injEq] at h
        obtain ⟨hr, hg⟩ := h
        subst hr; subst hg
        refine ⟨h1, by simp [h2], by simp [h3], h4, ca ++ [.sqrtsd ra ra], by simp [hca], ?_⟩
        intro i hi d hd
        simp only [List.mem_append, List.mem_singleton] at hi
        rcases hi with hi | hi
        · obtain ⟨hd1, hd2⟩ := hw i hi d hd
          exact ⟨hd1, by simp [hd2]⟩
        · subst hi
          simp only [Instr.writesX, List.mem_singleton] at hd
          subst hd
          exact ⟨h1, by simp [h2]⟩
  | node2 o a b iha ihb =>
    intro env g r g' h
    unfold jit_expr at h
    cases hb : jit_expr env b g with
    | none => rw [hb] at h; exact absurd h (by simp)
    | some p =>
      obtain ⟨rb, g1⟩ := p
      rw [hb] at h
      simp only [Option.pure_def, Option.bind_eq_bind, Option.some_bind] at h
      cases ha : jit_expr env a g1 with
      | none => rw [ha] at h; exact absurd h (by simp)
      | some q =>
        obtain ⟨ra, g2⟩ := q
        rw [ha] at h
        simp only [Option.pure_def, Option.bind_eq_bind, Option.some_bind] at h
        obtain ⟨hb1, hb2, hb3, hb4, cb, hcb, hwb⟩ := ihb env g rb g1 hb
        obtain ⟨ha1, ha2, ha3, ha4, cc, hcc, hwa⟩ := iha env g1 ra g2 ha
        have key : ∀ (tail : Instr) (gpn : Nat),
            (∀ d ∈ tail.writesX, d = ra ∨ d = rb) →
            some (ra, (⟨g2.xmm, gpn, g2.code ++ [tail]⟩ : CG)) = some (r, g') →
            g2.gp ≤ gpn →
            g.xmm ≤ r ∧ r < g'.xmm ∧ g.xmm ≤ g'.xmm ∧ g.gp ≤ g'.gp ∧
            ∃ c, g'.code = g.code ++ c ∧
              ∀ i ∈ c, ∀ d ∈ i.writesX, g.xmm ≤ d ∧ d < g'.xmm := by
          intro tail gpn htail heq hgp
          rw [Option.some.injEq, Prod.mk.injEq] at heq
          obtain ⟨hr, hg⟩ := heq
          subst hr; subst hg
          refine ⟨le_trans hb3 ha1, by simp [ha2], by simp; omega, by simp; omega,
            cb ++ cc ++ [tail], by simp [hcb, hcc], ?_⟩
          intro i hi d hd
          simp only [List.mem_append, List.mem_singleton] at hi
          rcases hi with (hi | hi) | hi
          · obtain ⟨hd1, hd2⟩ := hwb i hi d hd
            exact ⟨hd1, by simp; omega⟩
          · obtain ⟨hd1, hd2⟩ := hwa i hi d hd
            exact ⟨le_trans hb3 hd1, by simp [hd2]⟩
          · subst hi
            rcases htail d hd with hd | hd <;> subst hd
            · exact ⟨le_trans hb3 ha1, by simp [ha2]⟩
            · exact ⟨hb1, by simp; omega⟩
        by_cases k1 : o.op = "+"
        · rw [if_pos k1] at h
          exact key (.addsd ra rb) g2.gp (by simp [Instr.writesX]) h (le_refl _)
        rw [if_neg k1] at h
        by_cases k2 : o.op = "~"
        · rw [if_pos k2] at h
          exact key (.subsd ra rb) g2.gp (by simp [Instr.writesX]) h (le_refl _)
        rw [if_neg k2] at h
        by_cases k3 : o.op = "*"
        · rw [if_pos k3] at h
          exact key (.mulsd ra rb) g2.gp (by simp [Instr.writesX]) h (le_refl _)
        rw [if_neg k3] at h
        by_cases k4 : o.op = "/"
        · rw [if_pos k4] at h
          exact key (.divsd ra rb) g2.gp (by simp [Instr.writesX]) h (le_refl _)
        rw [if_neg k4] at h
        by_cases k5 : o.op = "^"
        · rw [if_pos k5] at h
          exact key (.powsd ra rb g2.gp) (g2.gp + 1)
            (by intro d hd; simpa [Instr.writesX] using hd) h (by omega)
        rw [if_neg k5] at h
        exact absurd h (by simp)

/-- C10: the scalar code generator never writes to a register bound in
the variable environment: every leaf — identifier or numeric literal —
is materialized by a MOVSD copy into a freshly allocated XMM register
(the result register is at or above the incoming allocation counter),
and every register written by the emitted code was allocated during this
compilation, so the environment mapping stays valid and an expression
using the same variable twice (e.g. `b*b` from lowering `b^2`) reads the
unmodified bound register each time. -/
theorem C10_env_registers_never_written (t : Ast) (env : String → Option Loc)
    (g : CG) (r : Nat) (g' : CG)
    (hEnv : ∀ v n, env v = some (Loc.reg n) → n < g.xmm)
    (h : jit_expr env t g = some (r, g')) :
    g.xmm ≤ r ∧
    ∃ c, g'.code = g.code ++ c ∧
      ∀ i ∈ c, ∀ d ∈ i.writesX, ∀ v n, env v = some (Loc.reg n) → d ≠ n := by
  obtain ⟨h1, _, _, _, c, hc, hw⟩ := jit_expr_shape t env g r g' h
  refine ⟨h1, c, hc, ?_⟩
  intro i hi d hd v n henv
  have hda := (hw i hi d hd).1
  have hnb := hEnv v n henv
  omega

/-- C10 (witness): compiling `b*b` against an environment binding `b` to
XMM register 0; no emitted instruction writes register 0. -/
theorem C10_witness :
    (1 : Nat) ≤ 2 ∧
    ∃ c, ([Instr.movR 1 0, Instr.movR 2 0, Instr.mulsd 2 1] : List Instr) = [] ++ c ∧
      ∀ i ∈ c, ∀ d ∈ i.writesX, ∀ v n,
        (if v = "b" then some (Loc.reg 0) else none) = some (Loc.reg n) → d ≠ n := by
  have h := C10_env_registers_never_written (.node2 opMul (.leaf "b") (.leaf "b"))
    (fun v => if v = "b" then some (Loc.reg 0) else none) ⟨1, 0, []⟩ 2
    ⟨3, 0, [Instr.movR 1 0, Instr.movR 2 0, Instr.mulsd 2 1]⟩ ?_ (by decide)
  · exact h
  · intro v n henv
    simp only at henv
    by_cases hv : v = "b"
    · rw [if_pos hv] at henv
      injection henv with henv
      injection henv with henv
      subst henv
      decide
    · rw [if_neg hv] at henv
      exact Option.noConfusion henv

/-- The compiled body of `t+x` against `t ↦ reg 0, x ↦ [reg_a]`. -/
def sumBodyCode : List Instr := [.movM 1, .movR 2 0, .addsd 2 1]

lemma sumBody_compiles :
    jit_expr (fun s => if s = "t" then some (Loc.reg 0) else
      if s = "x" then some Loc.mem else none)
      (.node2 opAdd (.leaf "t") (.leaf "x")) ⟨1, 2, []⟩ = some (2, ⟨3, 2, sumBodyCode⟩) := by
  decide

/-- Running the reduction loop on the `t+x` body over an all-ones buffer
adds one per iteration. -/
lemma reduceLoop_sum_ones (sqrtF : ℚ → ℚ) :
    ∀ (n : Nat) (f : Nat → ℚ) (idx : Nat),
      ∃ fin, reduceLoop sqrtF sumBodyCode 2 (fun _ => 1) n f idx = some (fin, idx + n) ∧
        fin 0 = f 0 + (n : ℚ) := by
  intro n
  induction n with
  | zero => intro f idx; exact ⟨f, rfl, by simp⟩
  | succ n ih =>
    intro f idx
    obtain ⟨fin, hrun, hval⟩ := ih (Function.update
      (Function.update (Function.update (Function.update f 1 1) 2
        ((Function.update f 1 1) 0))
        2 (qadd ((Function.update (Function.update f 1 1) 2
          ((Function.update f 1 1) 0)) 2)
          ((Function.update (Function.update f 1 1) 2
            ((Function.update f 1 1) 0)) 1)))
      0 ((Function.update (Function.update (Function.update f 1 1) 2
        ((Function.update f 1 1) 0))
        2 (qadd ((Function.update (Function.update f 1 1) 2
          ((Function.update f 1 1) 0)) 2)
          ((Function.update (Function.update f 1 1) 2
            ((Function.update f 1 1) 0)) 1))) 2)) (idx + 1)
    refine ⟨fin, ?_, ?_⟩
    · show (do
        let f' ← execCode sqrtF ((fun (_ : Nat) => (1 : ℚ)) idx) sumBodyCode f
        reduceLoop sqrtF sumBodyCode 2 (fun _ => 1) n
          (Function.update f' 0 (f' 2)) (idx + 1)) = some (fin, idx + (n + 1))
      rw [show execCode sqrtF ((fun (_ : Nat) => (1 : ℚ)) idx) sumBodyCode f =
        some (Function.update (Function.update (Function.update f 1 1) 2
          ((Function.update f 1 1) 0))
          2 (qadd ((Function.update (Function.update f 1 1) 2
            ((Function.update f 1 1) 0)) 2)
            ((Function.update (Function.update f 1 1) 2
              ((Function.update f 1 1) 0)) 1))) from rfl]
      simp only [Option.pure_def, Option.bind_eq_bind, Option.some_bind]
      rw [hrun]
      congr 2
      omega
    · rw [hval]
      simp [Function.update_apply, qadd_eq]
      ring


/-- Unfolding `array_reducer_run` once the body compiles. -/
lemma array_reducer_run_unfold (sqrtF : ℚ → ℚ) (vA vE : String) (body : Ast)
    (ini : ℚ) (count : Int) (buf : Nat → ℚ) (r : Nat) (g : CG)
    (hv : vA ≠ vE ∧ sorted_free_vars body = sortStr [vA, vE])
    (hjit : jit_expr (fun s => if s = vA then some (Loc.reg 0) else
      if s = vE then some Loc.mem else none) body ⟨1, 2, []⟩ = some (r, g)) :
    array_reducer_run sqrtF vA vE body ini count buf =
      (reduceLoop sqrtF g.code r buf (down_under_iters count)
        (Function.update (fun _ => 0) 0 ini) 0).bind
        (fun p => some (p.1 0, down_under_iters count)) := by
  unfold array_reducer_run
  rw [if_pos hv]
  dsimp only
  rw [hjit]
  simp only [Option.pure_def, Option.bind_eq_bind, Option.some_bind]

/-- C5 (counterexample): calling the compiled reduction with the
negative 64-bit count `-1` does NOT return the initial value with no
iterations: the unsigned `SUB/JB` countdown reinterprets `-1` as
`2^64 - 1`, the loop runs that many times, and summing an all-ones
buffer from initial `0` returns `2^64 - 1 ≠ 0`. -/
theorem C5_counterexample_negative_count :
    array_reducer_run (fun _ => 0) "t" "x" (.node2 opAdd (.leaf "t") (.leaf "x")) 0 (-1)
      (fun _ => 1) = some ((((2 : Nat) ^ 64 - 1 : Nat) : ℚ), 2 ^ 64 - 1) ∧
    (((2 : Nat) ^ 64 - 1 : Nat) : ℚ) ≠ 0 ∧ ((2 : Nat) ^ 64 - 1 : Nat) ≠ 0 := by
  refine ⟨?_, Nat.cast_ne_zero.mpr (by decide), by decide⟩
  rw [array_reducer_run_unfold (fun _ => 0) "t" "x" _ 0 (-1) (fun _ => 1) 2
    ⟨3, 2, sumBodyCode⟩ (by decide) sumBody_compiles]
  rw [show down_under_iters (-1) = (2 : Nat) ^ 64 - 1 from by decide]
  obtain ⟨fin, hrun, hval⟩ := reduceLoop_sum_ones (fun _ => 0) ((2 : Nat) ^ 64 - 1)
    (Function.update (fun _ => 0) 0 0) 0
  rw [hrun, Option.some_bind]
  dsimp only
  rw [hval, Function.update_same, zero_add]

/-- C5 (amended): with count `0` the compiled reduction returns the
initial accumulator unchanged and performs no iterations; the claim
fails for negative counts: the `SUB/JB` countdown is unsigned, so every
negative 64-bit count performs `2^64 + count` iterations — nonzero —
rather than none. -/
theorem C5_amended_zero_vs_negative (sqrtF : ℚ → ℚ) (vA vE : String) (body : Ast)
    (ini : ℚ) (buf : Nat → ℚ) (r : Nat) (g : CG)
    (hv : vA ≠ vE ∧ sorted_free_vars body = sortStr [vA, vE])
    (hjit : jit_expr (fun s => if s = vA then some (Loc.reg 0) else
      if s = vE then some Loc.mem else none) body ⟨1, 2, []⟩ = some (r, g)) :
    array_reducer_run sqrtF vA vE body ini 0 buf = some (ini, 0) ∧
    ∀ count : Int, -(2 ^ 63) ≤ count → count < 0 →
      down_under_iters count = (2 ^ 64 + count).toNat ∧ down_under_iters count ≠ 0 := by
  constructor
  · rw [array_reducer_run_unfold sqrtF vA vE body ini 0 buf r g hv hjit]
    rw [show down_under_iters 0 = 0 from by decide]
    rw [show reduceLoop sqrtF g.code r buf 0 (Function.update (fun _ => 0) 0 ini) 0 =
      some (Function.update (fun _ => 0) 0 ini, 0) from rfl]
    rw [Option.some_bind]
    dsimp only
    rw [Function.update_same]
  · intro count h1 h2
    unfold down_under_iters
    omega

/-- C5 (witness). -/
theorem C5_amended_witness :
    array_reducer_run (fun _ => 0) "t" "x" (.node2 opAdd (.leaf "t") (.leaf "x")) 5 0
      (fun _ => 1) = some (5, 0) ∧
    down_under_iters (-5) = ((2 : Int) ^ 64 + (-5)).toNat ∧ down_under_iters (-5) ≠ 0 := by
  have h := C5_amended_zero_vs_negative (fun _ => 0) "t" "x"
    (.node2 opAdd (.leaf "t") (.leaf "x")) 5 (fun _ => 1) 2 ⟨3, 2, sumBodyCode⟩
    (by decide) sumBody_compiles
  exact ⟨h.1, (h.2 (-5) (by norm_num) (by norm_num)).1,
    (h.2 (-5) (by norm_num) (by norm_num)).2⟩


/-! ## The pretty-printer (`test_jit.py`, `unparse`, lines 48-67)

`unparse` turns an AST back into an infix string.  A 1-tuple `(op,)`
(`node0`) makes the source raise `ValueError` on tuple unpacking, hence
`Option`.  The parenthesization tests read `arg[0]`, the head operator of
a tuple child. -/

def Ast.headOp : Ast → Option Op
  | .leaf _ => none
  | .node0 o => some o
  | .node1 o _ => some o
  | .node2 o _ _ => some o

/-- `{"~": "-"}.get(o, o)`: the printed text of a binary operator. -/
def opTxt (o : Op) : String := if o.op = "~" then "-" else o.op

/-- Parenthesize the child of a unary operator:
`type(arg) is tuple and unary_op.left_first(arg[0])`. -/
def parenU (o : Op) (a : Ast) : Bool :=
  match a.headOp with
  | some p => o.left_first p
  | none => false

/-- Parenthesize the left child:
`type(arg1) is tuple and not arg1[0].left_first(binary_op)`. -/
def parenL (o : Op) (a : Ast) : Bool :=
  match a.headOp with
  | some p => !(p.left_first o)
  | none => false

/-- Parenthesize the right child:
`type(arg2) is tuple and len(arg2) > 2 and binary_op.left_first(arg2[0])`. -/
def parenR (o : Op) (b : Ast) : Bool :=
  match b with
  | .node2 p _ _ => o.left_first p
  | _ => false

def unparse : Ast → Option String
  | .leaf s => some s
  | .node0 _ => none
  | .node1 o a =>
    (unparse a).map fun x =>
      if parenU o a then o.op ++ "(" ++ x ++ ")" else o.op ++ x
  | .node2 o a b =>
    (unparse a).bind fun x =>
      (unparse b).map fun y =>
        let xs := if parenL o a then "(" ++ x ++ ")" else x
        let ys := if parenR o b then "(" ++ y ++ ")" else y
        if opTxt o = "^" then xs ++ "^" ++ ys
        else xs ++ " " ++ opTxt o ++ " " ++ ys

/-! ## The token sequence the lexer recovers from `unparse` output -/

def toks : Ast → List Token
  | .leaf s => [.str s]
  | .node0 _ => []
  | .node1 o a =>
    .str o.op :: (if parenU o a then .str "(" :: toks a ++ [.str ")"] else toks a)
  | .node2 o a b =>
    (if parenL o a then .str "(" :: toks a ++ [.str ")"] else toks a)
    ++ .str (opTxt o)
    :: (if parenR o b then .str "(" :: toks b ++ [.str ")"] else toks b)

/-! ## The class of ASTs for which the round trip is proved

A leaf must come back from the lexer as itself: its characters are never
whitespace or operator characters, a `+`/`-` occurs only where the
lookbehind `(?<![0-9.][eE])` suppresses the operator match (so never in
the first two positions), and the canonicalization step of `lex` must be
the identity on it.  The class admits only leaves that are not number
spellings at all (`pyFloat` returns `none`): on those the source's
`float(tok)` raises `ValueError` — or, for `nan` spellings, succeeds but
then `int(nan)` inside `canonicalize_num` raises `ValueError` — which
`lex` catches, yielding the token unchanged exactly as the model does.
Numeric literals are excluded outright because their canonical form is
`repr(float(tok))`, whose faithful model would need IEEE-754 rounding
(e.g. the source rewrites "0.30000000000000001" to "0.3").  Digit-flanked
underscores and `inf`/`infinity` spellings are excluded: Python's `float`
accepts them (PEP-515 grouping, infinities) where the model's `pyFloat`
does not — `float("inf")` even makes the source's `canonicalize_num`
raise an uncaught `OverflowError` — and ASCII-only leaves keep `float`'s
Unicode digit forms out of scope (see the header notes).  Outside those
three excluded shapes, `pyFloat p = none` coincides with `float(tok)`
raising `ValueError`. -/

def leafCharOk (c : Char) : Bool :=
  !isWs c && !opSingleChar c && c.toNat ≤ 127

def notPM (c : Char) : Bool := !(c = '+' || c = '-')

/-- Scan positions at index ≥ 2: `pp`, `p` are the two previous characters. -/
def leafOk2 (pp p : Char) : List Char → Bool
  | [] => true
  | c :: cs =>
    leafCharOk c && (notPM c || lookbehindBlocked (some pp) (some p)) && leafOk2 p c cs

def leafOk : List Char → Bool
  | [] => false
  | [c] => leafCharOk c && notPM c
  | c :: d :: cs =>
    leafCharOk c && notPM c && leafCharOk d && notPM d && leafOk2 c d cs

/-- No underscore with decimal digits adjacent on both sides (those make
Python `float` accept the token while the model's `pyFloat` does not). -/
def noDigUnd : List Char → Bool
  | a :: '_' :: b :: r => !(isDigit a && isDigit b) && noDigUnd ('_' :: b :: r)
  | _ :: r => noDigUnd r
  | [] => true

def asciiLower (c : Char) : Char :=
  if 'A' ≤ c && c ≤ 'Z' then Char.ofNat (c.toNat + 32) else c

def infLike (s : String) : Bool :=
  let l := String.mk (s.data.map asciiLower)
  l = "inf" || l = "infinity"

/-- The canonicalization `lex` applies to each piece. -/
def tokCanon (p : String) : String :=
  match pyFloat p with
  | some q => canonicalize_num q
  | none => p

def GoodLeaf (s : String) : Bool :=
  leafOk s.data && noDigUnd s.data && !infLike s && (OPS s).isNone &&
  (pyFloat s).isNone

def GoodB : Ast → Bool
  | .leaf s => GoodLeaf s
  | .node0 _ => false
  | .node1 o a => o = opNeg && GoodB a
  | .node2 o a b =>
    (o = opAdd || o = opSub || o = opMul || o = opDiv || o = opPow) &&
    GoodB a && GoodB b

/-! ## Scanner state left behind by one `unparse` chunk -/

/-- Does the printed form of `t` end in a closing parenthesis? -/
def endsRP : Ast → Bool
  | .leaf _ => false
  | .node0 _ => false
  | .node1 o a => parenU o a || endsRP a
  | .node2 o _ b => parenR o b || endsRP b

/-- The (reversed) trailing piece still in the scanner's accumulator
after the chunk. -/
def tacc : Ast → List Char
  | .leaf s => s.data.reverse
  | .node0 _ => []
  | .node1 o a => if parenU o a then [] else tacc a
  | .node2 o _ b => if parenR o b then [] else tacc b

def tstr (t : Ast) : String := String.mk (tacc t).reverse

/-- The pieces `re.split` has fully emitted within the chunk. -/
def emits : Ast → List String
  | .leaf _ => []
  | .node0 _ => []
  | .node1 o a =>
    if parenU o a then ["", o.op, "", "("] ++ emits a ++ [tstr a, ")"]
    else ["", o.op] ++ emits a
  | .node2 o a b =>
    (if parenL o a then ["", "("] ++ emits a ++ [tstr a, ")", ""]
     else emits a ++ [tstr a])
    ++ opTxt o
    :: (if parenR o b then ["", "("] ++ emits b ++ [tstr b, ")"] else emits b)

/-! ## Parser state after the shunting yard consumes `toks t` -/

def pendE : Ast → List Ast
  | .leaf s => [.leaf s]
  | .node0 _ => []
  | .node1 o a => if parenU o a then [a] else pendE a
  | .node2 o a b => (if parenR o b then [b] else pendE b) ++ [a]

def pendO : Ast → List Op
  | .leaf _ => []
  | .node0 _ => []
  | .node1 o a => if parenU o a then [o] else pendO a ++ [o]
  | .node2 o _ b => (if parenR o b then [] else pendO b) ++ [o]

/-- The operators inside `toks t` whose `popLoop` run can reach the
operator stack as it stood before `toks t` began. -/
def leftB : Ast → List Op
  | .leaf _ => []
  | .node0 _ => []
  | .node1 _ _ => []
  | .node2 o a _ => (if parenL o a then [] else leftB a) ++ [o]

/-! ## One-step unfolding equations for the splitter -/

lemma splitLoopF_zero (acc : List Char) (p2 p1 : Option Char) (input : List Char) :
    splitLoopF 0 acc p2 p1 input = [String.mk acc.reverse] := rfl

lemma splitLoopF_nil (f : Nat) (acc : List Char) (p2 p1 : Option Char) :
    splitLoopF (f + 1) acc p2 p1 [] = [String.mk acc.reverse] := rfl

lemma splitLoopF_op (f : Nat) (acc : List Char) (p2 p1 : Option Char) (c : Char)
    (cs : List Char) (o : String) (r : List Char)
    (h : opHere p2 p1 (c :: cs) = some (o, r)) :
    splitLoopF (f + 1) acc p2 p1 (c :: cs) =
      String.mk (acc.dropWhile isWs).reverse :: o ::
        splitLoopF f []
          (skipWs (slideWin p2 p1 o.data).1 (slideWin p2 p1 o.data).2 r).1
          (skipWs (slideWin p2 p1 o.data).1 (slideWin p2 p1 o.data).2 r).2.1
          (skipWs (slideWin p2 p1 o.data).1 (slideWin p2 p1 o.data).2 r).2.2 := by
  show (match opHere p2 p1 (c :: cs) with
      | some (o, r) =>
        String.mk (acc.dropWhile isWs).reverse :: o ::
          splitLoopF f []
            (skipWs (slideWin p2 p1 o.data).1 (slideWin p2 p1 o.data).2 r).1
            (skipWs (slideWin p2 p1 o.data).1 (slideWin p2 p1 o.data).2 r).2.1
            (skipWs (slideWin p2 p1 o.data).1 (slideWin p2 p1 o.data).2 r).2.2
      | none => splitLoopF f (c :: acc) p1 (some c) cs) = _
  rw [h]

lemma splitLoopF_noop (f : Nat) (acc : List Char) (p2 p1 : Option Char) (c : Char)
    (cs : List Char) (h : opHere p2 p1 (c :: cs) = none) :
    splitLoopF (f + 1) acc p2 p1 (c :: cs) = splitLoopF f (c :: acc) p1 (some c) cs := by
  show (match opHere p2 p1 (c :: cs) with
      | some (o, r) =>
        String.mk (acc.dropWhile isWs).reverse :: o ::
          splitLoopF f []
            (skipWs (slideWin p2 p1 o.data).1 (slideWin p2 p1 o.data).2 r).1
            (skipWs (slideWin p2 p1 o.data).1 (slideWin p2 p1 o.data).2 r).2.1
            (skipWs (slideWin p2 p1 o.data).1 (slideWin p2 p1 o.data).2 r).2.2
      | none => splitLoopF f (c :: acc) p1 (some c) cs) = _
  rw [h]

/-! ## Facts about the operator match at a single position -/

lemma opSingle_ne (c : Char) (h : opSingleChar c = false) :
    c ≠ '>' ∧ c ≠ '=' ∧ c ≠ '<' := by
  refine ⟨?_, ?_, ?_⟩ <;> rintro rfl <;> simp [opSingleChar] at h

lemma opHere1_none (p2 p1 : Option Char) (c : Char) (r : List Char)
    (hop : opSingleChar c = false)
    (h2 : notPM c = true ∨ lookbehindBlocked p2 p1 = true) :
    opHere1 p2 p1 c r = none := by
  unfold opHere1
  rw [if_neg (by simp [hop]), if_neg]
  rcases h2 with h | h
  · simp only [notPM, Bool.not_eq_true', Bool.or_eq_false_iff] at h
    simp [h.1, h.2]
  · simp [h]

lemma opHere_none_of (p2 p1 : Option Char) (c : Char) (cs : List Char)
    (hop : opSingleChar c = false)
    (h2 : notPM c = true ∨ lookbehindBlocked p2 p1 = true) :
    opHere p2 p1 (c :: cs) = none := by
  obtain ⟨hgt, heq, hlt⟩ := opSingle_ne c hop
  cases cs with
  | nil => exact opHere1_none p2 p1 c [] hop h2
  | cons d r =>
    show (if c = '>' && d = '=' then some (">=", r)
      else if c = '=' && d = '<' then some ("=<", r)
      else if c = '<' && d = '=' then some ("<=", r)
      else if c = '=' && d = '>' then some ("=>", r)
      else opHere1 p2 p1 c (d :: r)) = none
    rw [if_neg (by simp [hgt]), if_neg (by simp [heq]), if_neg (by simp [hlt]),
      if_neg (by simp [heq])]
    exact opHere1_none p2 p1 c (d :: r) hop h2

lemma opHere_single (p2 p1 : Option Char) (c : Char) (cs : List Char)
    (hop : opSingleChar c = true) (hgt : c ≠ '>') (heq : c ≠ '=') (hlt : c ≠ '<') :
    opHere p2 p1 (c :: cs) = some (String.mk [c], cs) := by
  cases cs with
  | nil =>
    show opHere1 p2 p1 c [] = _
    unfold opHere1
    rw [if_pos (by simp [hop])]
  | cons d r =>
    show (if c = '>' && d = '=' then some (">=", r)
      else if c = '=' && d = '<' then some ("=<", r)
      else if c = '<' && d = '=' then some ("<=", r)
      else if c = '=' && d = '>' then some ("=>", r)
      else opHere1 p2 p1 c (d :: r)) = _
    rw [if_neg (by simp [hgt]), if_neg (by simp [heq]), if_neg (by simp [hlt]),
      if_neg (by simp [heq])]
    unfold opHere1
    rw [if_pos (by simp [hop])]

lemma opHere_pm (p2 p1 : Option Char) (c : Char) (cs : List Char)
    (hc : c = '+' ∨ c = '-') (hb : lookbehindBlocked p2 p1 = false) :
    opHere p2 p1 (c :: cs) = some (String.mk [c], cs) := by
  have hop : opSingleChar c = false := by rcases hc with rfl | rfl <;> decide
  have hgt : c ≠ '>' := by rcases hc with rfl | rfl <;> decide
  have heq : c ≠ '=' := by rcases hc with rfl | rfl <;> decide
  have hlt : c ≠ '<' := by rcases hc with rfl | rfl <;> decide
  have h1 : opHere1 p2 p1 c cs = some (String.mk [c], cs) := by
    unfold opHere1
    rw [if_neg (by simp [hop]), if_pos]
    rcases hc with rfl | rfl <;> simp [hb]
  cases cs with
  | nil => exact h1
  | cons d r =>
    show (if c = '>' && d = '=' then some (">=", r)
      else if c = '=' && d = '<' then some ("=<", r)
      else if c = '<' && d = '=' then some ("<=", r)
      else if c = '=' && d = '>' then some ("=>", r)
      else opHere1 p2 p1 c (d :: r)) = _
    rw [if_neg (by simp [hgt]), if_neg (by simp [heq]), if_neg (by simp [hlt]),
      if_neg (by simp [heq])]
    exact h1

/-! ## `skipWs` facts -/

lemma skipWs_nonws (p2 p1 : Option Char) (c : Char) (cs : List Char)
    (h : isWs c = false) : skipWs p2 p1 (c :: cs) = (p2, p1, c :: cs) := by
  unfold skipWs
  rw [if_neg (by simp [h])]

lemma skipWs_len : ∀ (p2 p1 : Option Char) (l : List Char),
    (skipWs p2 p1 l).2.2.length ≤ l.length
  | _, _, [] => by simp [skipWs]
  | p2, p1, c :: cs => by
    by_cases h : isWs c
    · unfold skipWs
      rw [if_pos (by simp [h])]
      exact le_trans (skipWs_len p1 (some c) cs) (by simp)
    · rw [skipWs_nonws p2 p1 c cs (by simp [h])]

/-! ## Fuel irrelevance for the splitter -/

lemma opHere1_tail {p2 p1 : Option Char} {c : Char} {r : List Char} {o : String}
    {r2 : List Char} (h : opHere1 p2 p1 c r = some (o, r2)) : r2 = r := by
  unfold opHere1 at h
  split_ifs at h <;> simp_all

lemma opHere_len {p2 p1 : Option Char} {cs : List Char} {o : String} {r : List Char}
    (h : opHere p2 p1 cs = some (o, r)) : r.length < cs.length := by
  match cs with
  | [] => exact absurd h (by simp [opHere])
  | [c] =>
    have := opHere1_tail (show opHere1 p2 p1 c [] = some (o, r) from h)
    subst this; simp
  | c :: d :: rr =>
    revert h
    show (if c = '>' && d = '=' then some (">=", rr)
      else if c = '=' && d = '<' then some ("=<", rr)
      else if c = '<' && d = '=' then some ("<=", rr)
      else if c = '=' && d = '>' then some ("=>", rr)
      else opHere1 p2 p1 c (d :: rr)) = some (o, r) → r.length < (c :: d :: rr).length
    intro h
    split_ifs at h
    · simp_all; omega
    · simp_all; omega
    · simp_all; omega
    · simp_all; omega
    · have := opHere1_tail h
      subst this; simp

lemma splitLoopF_mono : ∀ (f g : Nat) (acc : List Char) (p2 p1 : Option Char)
    (input : List Char), input.length ≤ f → input.length ≤ g →
    splitLoopF f acc p2 p1 input = splitLoopF g acc p2 p1 input := by
  intro f
  induction f with
  | zero =>
    intro g acc p2 p1 input hf _
    have : input = [] := List.length_eq_zero.mp (Nat.le_zero.mp hf)
    subst this
    cases g with
    | zero => rfl
    | succ g => rw [splitLoopF_zero, splitLoopF_nil]
  | succ f ih =>
    intro g acc p2 p1 input hf hg
    cases input with
    | nil =>
      cases g with
      | zero => rw [splitLoopF_zero, splitLoopF_nil]
      | succ g => rw [splitLoopF_nil, splitLoopF_nil]
    | cons c cs =>
      have hg1 : 1 ≤ g := le_trans (by simp) hg
      obtain ⟨g, rfl⟩ : ∃ g2, g = g2 + 1 := ⟨g - 1, by omega⟩
      cases h : opHere p2 p1 (c :: cs) with
      | some pr =>
        obtain ⟨o, r⟩ := pr
        rw [splitLoopF_op f acc p2 p1 c cs o r h, splitLoopF_op g acc p2 p1 c cs o r h]
        have hr : r.length < cs.length + 1 := by simpa using opHere_len h
        have hz : (skipWs (slideWin p2 p1 o.data).1 (slideWin p2 p1 o.data).2 r).2.2.length
            ≤ r.length := skipWs_len _ _ r
        have hf2 : cs.length + 1 ≤ f + 1 := by simpa using hf
        have hg2 : cs.length + 1 ≤ g + 1 := by simpa using hg
        have h1 : (skipWs (slideWin p2 p1 o.data).1 (slideWin p2 p1 o.data).2 r).2.2.length
            ≤ f := by omega
        have h2 : (skipWs (slideWin p2 p1 o.data).1 (slideWin p2 p1 o.data).2 r).2.2.length
            ≤ g := by omega
        rw [ih g [] _ _ _ h1 h2]
      | none =>
        rw [splitLoopF_noop f acc p2 p1 c cs h, splitLoopF_noop g acc p2 p1 c cs h]
        have hf2 : cs.length + 1 ≤ f + 1 := by simpa using hf
        have hg2 : cs.length + 1 ≤ g + 1 := by simpa using hg
        exact ih g (c :: acc) p1 (some c) cs (by omega) (by omega)

/-! ## Consuming one leaf through the splitter -/

lemma leafChunk2 : ∀ (cs : List Char) (pp p : Char) (acc rest : List Char) (fuel : Nat),
    leafOk2 pp p cs = true →
    splitLoopF (cs.length + fuel) acc (some pp) (some p) (cs ++ rest)
      = splitLoopF fuel (cs.reverse ++ acc) (slideWin (some pp) (some p) cs).1
          (slideWin (some pp) (some p) cs).2 rest := by
  intro cs
  induction cs with
  | nil => intro pp p acc rest fuel _; simp [slideWin]
  | cons c cs ih =>
    intro pp p acc rest fuel h
    rw [show leafOk2 pp p (c :: cs)
        = ((leafCharOk c && (notPM c || lookbehindBlocked (some pp) (some p)))
            && leafOk2 p c cs) from rfl,
      Bool.and_eq_true, Bool.and_eq_true] at h
    obtain ⟨⟨h1, h2⟩, h3⟩ := h
    have h2 := (Bool.or_eq_true _ _).mp h2
    have hlen : (c :: cs).length + fuel = (cs.length + fuel) + 1 := by simp; omega
    rw [hlen, List.cons_append,
      splitLoopF_noop _ acc (some pp) (some p) c (cs ++ rest)
        (opHere_none_of _ _ c _ (by simp [leafCharOk, Bool.and_eq_true] at h1; simp [h1]) h2),
      ih p c (c :: acc) rest fuel h3]
    have : cs.reverse ++ (c :: acc) = (c :: cs).reverse ++ acc := by simp
    rw [this]
    rfl

lemma leafChunk : ∀ (cs : List Char), leafOk cs = true →
    ∀ (p2 p1 : Option Char) (acc rest : List Char) (fuel : Nat),
    splitLoopF (cs.length + fuel) acc p2 p1 (cs ++ rest)
      = splitLoopF fuel (cs.reverse ++ acc) (slideWin p2 p1 cs).1
          (slideWin p2 p1 cs).2 rest := by
  intro cs hok p2 p1 acc rest fuel
  match cs with
  | [] => simp [leafOk] at hok
  | [c] =>
    rw [show leafOk [c] = (leafCharOk c && notPM c) from rfl, Bool.and_eq_true] at hok
    have hop : opSingleChar c = false := by
      have := hok.1; simp [leafCharOk, Bool.and_eq_true] at this; simp [this]
    rw [show ([c] : List Char).length + fuel = fuel + 1 by simp; omega,
      List.cons_append, List.nil_append,
      splitLoopF_noop fuel acc p2 p1 c rest (opHere_none_of _ _ c _ hop (Or.inl hok.2))]
    rfl
  | c :: d :: cs2 =>
    rw [show leafOk (c :: d :: cs2)
        = ((((leafCharOk c && notPM c) && leafCharOk d) && notPM d) && leafOk2 c d cs2)
        from rfl,
      Bool.and_eq_true, Bool.and_eq_true, Bool.and_eq_true, Bool.and_eq_true] at hok
    obtain ⟨⟨⟨⟨hc1, hc2⟩, hd1⟩, hd2⟩, h2⟩ := hok
    have hopc : opSingleChar c = false := by
      simp [leafCharOk, Bool.and_eq_true] at hc1; simp [hc1]
    have hopd : opSingleChar d = false := by
      simp [leafCharOk, Bool.and_eq_true] at hd1; simp [hd1]
    rw [show (c :: d :: cs2).length + fuel = (cs2.length + fuel) + 1 + 1 by simp; omega,
      List.cons_append, List.cons_append,
      splitLoopF_noop _ acc p2 p1 c _ (opHere_none_of _ _ c _ hopc (Or.inl hc2)),
      splitLoopF_noop _ _ p1 (some c) d _ (opHere_none_of _ _ d _ hopd (Or.inl hd2)),
      leafChunk2 cs2 c d (d :: c :: acc) rest fuel h2]
    have : cs2.reverse ++ (d :: c :: acc) = (c :: d :: cs2).reverse ++ acc := by simp
    rw [this]
    rfl

/-! ## Unpacking the `Good` predicates and `unparse` results -/

lemma goodB_node1 {o : Op} {a : Ast} (h : GoodB (.node1 o a) = true) :
    o = opNeg ∧ GoodB a = true := by
  rw [show GoodB (.node1 o a) = (decide (o = opNeg) && GoodB a) from rfl,
    Bool.and_eq_true, decide_eq_true_eq] at h
  exact h

lemma goodB_node2 {o : Op} {a b : Ast} (h : GoodB (.node2 o a b) = true) :
    (o = opAdd ∨ o = opSub ∨ o = opMul ∨ o = opDiv ∨ o = opPow) ∧
    GoodB a = true ∧ GoodB b = true := by
  rw [show GoodB (.node2 o a b)
      = (((decide (o = opAdd) || decide (o = opSub) || decide (o = opMul) ||
          decide (o = opDiv) || decide (o = opPow)) && GoodB a) && GoodB b) from rfl,
    Bool.and_eq_true, Bool.and_eq_true] at h
  obtain ⟨⟨h1, h2⟩, h3⟩ := h
  refine ⟨?_, h2, h3⟩
  simp only [Bool.or_eq_true, decide_eq_true_eq] at h1
  tauto

lemma goodLeaf_parts {s : String} (h : GoodLeaf s = true) :
    leafOk s.data = true ∧ OPS s = none ∧ tokCanon s = s := by
  rw [show GoodLeaf s
      = ((((leafOk s.data && noDigUnd s.data) && !infLike s) && (OPS s).isNone)
          && (pyFloat s).isNone) from rfl,
    Bool.and_eq_true, Bool.and_eq_true, Bool.and_eq_true, Bool.and_eq_true] at h
  refine ⟨h.1.1.1.1, Option.isNone_iff_eq_none.mp h.1.2, ?_⟩
  show (match pyFloat s with
    | some q => canonicalize_num q
    | none => s) = s
  rw [Option.isNone_iff_eq_none.mp h.2]

lemma unparse_node1 {o : Op} {a : Ast} {s : String}
    (h : unparse (.node1 o a) = some s) :
    ∃ x, unparse a = some x ∧
      s = (if parenU o a then o.op ++ "(" ++ x ++ ")" else o.op ++ x) := by
  cases ha : unparse a with
  | none => rw [show unparse (.node1 o a) = (unparse a).map _ from rfl, ha] at h; cases h
  | some x =>
    rw [show unparse (.node1 o a) = (unparse a).map
      (fun x => if parenU o a then o.op ++ "(" ++ x ++ ")" else o.op ++ x) from rfl,
      ha, Option.map_some'] at h
    exact ⟨x, rfl, (Option.some.injEq _ _ ▸ h).symm⟩

lemma unparse_node2 {o : Op} {a b : Ast} {s : String}
    (h : unparse (.node2 o a b) = some s) :
    ∃ x y, unparse a = some x ∧ unparse b = some y ∧
      s = (if opTxt o = "^" then
            (if parenL o a then "(" ++ x ++ ")" else x) ++ "^" ++
              (if parenR o b then "(" ++ y ++ ")" else y)
          else
            (if parenL o a then "(" ++ x ++ ")" else x) ++ " " ++ opTxt o ++ " " ++
              (if parenR o b then "(" ++ y ++ ")" else y)) := by
  cases ha : unparse a with
  | none =>
    rw [show unparse (.node2 o a b) = (unparse a).bind _ from rfl, ha] at h; cases h
  | some x =>
    cases hb : unparse b with
    | none =>
      rw [show unparse (.node2 o a b) = (unparse a).bind
          (fun x => (unparse b).map (fun y =>
            let xs := if parenL o a then "(" ++ x ++ ")" else x
            let ys := if parenR o b then "(" ++ y ++ ")" else y
            if opTxt o = "^" then xs ++ "^" ++ ys
            else xs ++ " " ++ opTxt o ++ " " ++ ys)) from rfl,
        ha, Option.some_bind, hb] at h
      cases h
    | some y =>
      rw [show unparse (.node2 o a b) = (unparse a).bind
          (fun x => (unparse b).map (fun y =>
            let xs := if parenL o a then "(" ++ x ++ ")" else x
            let ys := if parenR o b then "(" ++ y ++ ")" else y
            if opTxt o = "^" then xs ++ "^" ++ ys
            else xs ++ " " ++ opTxt o ++ " " ++ ys)) from rfl,
        ha, Option.some_bind, hb, Option.map_some'] at h
      exact ⟨x, y, rfl, rfl, (Option.some.injEq _ _ ▸ h).symm⟩

lemma unparse_some : ∀ t : Ast, GoodB t = true → ∃ s, unparse t = some s := by
  intro t
  induction t with
  | leaf s => exact fun _ => ⟨s, rfl⟩
  | node0 o => intro h; cases h
  | node1 o a ih =>
    intro h
    obtain ⟨x, hx⟩ := ih (goodB_node1 h).2
    exact ⟨_, by
      rw [show unparse (.node1 o a) = (unparse a).map
        (fun x => if parenU o a then o.op ++ "(" ++ x ++ ")" else o.op ++ x) from rfl,
        hx, Option.map_some']⟩
  | node2 o a b iha ihb =>
    intro h
    obtain ⟨hf, hga, hgb⟩ := goodB_node2 h
    obtain ⟨x, hx⟩ := iha hga
    obtain ⟨y, hy⟩ := ihb hgb
    exact ⟨_, by
      rw [show unparse (.node2 o a b) = (unparse a).bind
          (fun x => (unparse b).map (fun y =>
            let xs := if parenL o a then "(" ++ x ++ ")" else x
            let ys := if parenR o b then "(" ++ y ++ ")" else y
            if opTxt o = "^" then xs ++ "^" ++ ys
            else xs ++ " " ++ opTxt o ++ " " ++ ys)) from rfl,
        hx, Option.some_bind, hy, Option.map_some']⟩

/-! ## Whitespace-freeness of the pieces -/

lemma leafOk2_nonws : ∀ (cs : List Char) (pp p : Char), leafOk2 pp p cs = true →
    ∀ c ∈ cs, isWs c = false := by
  intro cs
  induction cs with
  | nil => intro pp p _ c hc; cases hc
  | cons c cs ih =>
    intro pp p h d hd
    rw [show leafOk2 pp p (c :: cs)
        = ((leafCharOk c && (notPM c || lookbehindBlocked (some pp) (some p)))
            && leafOk2 p c cs) from rfl,
      Bool.and_eq_true, Bool.and_eq_true] at h
    rcases List.mem_cons.mp hd with rfl | hd
    · have := h.1.1; simp [leafCharOk, Bool.and_eq_true] at this; simp [this]
    · exact ih p c h.2 d hd

lemma leafOk_nonws : ∀ (cs : List Char), leafOk cs = true →
    ∀ c ∈ cs, isWs c = false := by
  intro cs hok c hc
  match cs with
  | [d] =>
    rw [show leafOk [d] = (leafCharOk d && notPM d) from rfl, Bool.and_eq_true] at hok
    rcases List.mem_singleton.mp hc with rfl
    have := hok.1; simp [leafCharOk, Bool.and_eq_true] at this; simp [this]
  | d :: e :: cs2 =>
    rw [show leafOk (d :: e :: cs2)
        = ((((leafCharOk d && notPM d) && leafCharOk e) && notPM e) && leafOk2 d e cs2)
        from rfl,
      Bool.and_eq_true, Bool.and_eq_true, Bool.and_eq_true, Bool.and_eq_true] at hok
    rcases List.mem_cons.mp hc with rfl | hc
    · have := hok.1.1.1.1; simp [leafCharOk, Bool.and_eq_true] at this; simp [this]
    · rcases List.mem_cons.mp hc with rfl | hc
      · have := hok.1.1.2; simp [leafCharOk, Bool.and_eq_true] at this; simp [this]
      · exact leafOk2_nonws cs2 d e hok.2 c hc

lemma data_append (s t : String) : (s ++ t).data = s.data ++ t.data := rfl

lemma dropWhile_eq_self_of {l : List Char} (h : ∀ c ∈ l, isWs c = false) :
    l.dropWhile isWs = l := by
  cases l with
  | nil => rfl
  | cons c cs => rw [List.dropWhile_cons, if_neg (by simp [h c (by simp)])]

lemma endsRP_tacc : ∀ t : Ast, endsRP t = true → tacc t = [] := by
  intro t
  induction t with
  | leaf s => intro h; cases h
  | node0 o => intro _; rfl
  | node1 o a ih =>
    intro h
    rw [show endsRP (.node1 o a) = (parenU o a || endsRP a) from rfl] at h
    rw [show tacc (.node1 o a) = (if parenU o a then [] else tacc a) from rfl]
    rcases (Bool.or_eq_true _ _).mp h with h | h
    · rw [if_pos h]
    · by_cases hp : parenU o a
      · rw [if_pos hp]
      · rw [if_neg hp]; exact ih h
  | node2 o a b iha ihb =>
    intro h
    rw [show endsRP (.node2 o a b) = (parenR o b || endsRP b) from rfl] at h
    rw [show tacc (.node2 o a b) = (if parenR o b then [] else tacc b) from rfl]
    rcases (Bool.or_eq_true _ _).mp h with h | h
    · rw [if_pos h]
    · by_cases hp : parenR o b
      · rw [if_pos hp]
      · rw [if_neg hp]; exact ihb h

lemma taccClean : ∀ t : Ast, GoodB t = true → (tacc t).dropWhile isWs = tacc t := by
  intro t
  induction t with
  | leaf s =>
    intro h
    refine dropWhile_eq_self_of ?_
    intro c hc
    refine leafOk_nonws s.data (goodLeaf_parts h).1 c ?_
    have : c ∈ s.data.reverse := by simpa [tacc] using hc
    simpa using this
  | node0 o => intro h; cases h
  | node1 o a ih =>
    intro h
    rw [show tacc (.node1 o a) = (if parenU o a then [] else tacc a) from rfl]
    by_cases hp : parenU o a
    · rw [if_pos hp]; rfl
    · rw [if_neg hp]; exact ih (goodB_node1 h).2
  | node2 o a b iha ihb =>
    intro h
    rw [show tacc (.node2 o a b) = (if parenR o b then [] else tacc b) from rfl]
    by_cases hp : parenR o b
    · rw [if_pos hp]; rfl
    · rw [if_neg hp]; exact ihb (goodB_node2 h).2.2

lemma unparse_head : ∀ (t : Ast) (s : String), GoodB t = true → unparse t = some s →
    s.data ≠ [] ∧ isWs (s.data.headD 'x') = false := by
  intro t
  induction t with
  | leaf s0 =>
    intro s hg hs
    have hs0 : s0 = s := by simpa [unparse] using hs
    subst hs0
    cases hd : s0.data with
    | nil => rw [show GoodB (.leaf s0) = GoodLeaf s0 from rfl] at hg
             have := (goodLeaf_parts hg).1
             rw [hd] at this; cases this
    | cons c cs2 =>
      refine ⟨by simp [hd], ?_⟩
      exact leafOk_nonws s0.data (goodLeaf_parts hg).1 c (by rw [hd]; simp)
  | node0 o => intro s hg _; cases hg
  | node1 o a ih =>
    intro s hg hs
    obtain ⟨ho, hga⟩ := goodB_node1 hg
    obtain ⟨x, hx, hsx⟩ := unparse_node1 hs
    subst hsx ho
    by_cases hp : parenU opNeg a
    · rw [if_pos hp]
      constructor <;> simp [data_append, opNeg] <;> decide
    · rw [if_neg hp]
      constructor <;> simp [data_append, opNeg] <;> decide
  | node2 o a b iha ihb =>
    intro s hg hs
    obtain ⟨hf, hga, hgb⟩ := goodB_node2 hg
    obtain ⟨x, y, hx, hy, hsx⟩ := unparse_node2 hs
    subst hsx
    obtain ⟨hne, hhd⟩ := iha x hga hx
    obtain ⟨c, cs2, hcd⟩ := List.exists_cons_of_ne_nil hne
    have hcw : isWs c = false := by rw [hcd] at hhd; simpa using hhd
    by_cases hcar : opTxt o = "^" <;> [rw [if_pos hcar]; rw [if_neg hcar]] <;>
      by_cases hp : parenL o a
    · rw [if_pos hp]
      constructor <;> simp [data_append] <;> decide
    · rw [if_neg hp]
      refine ⟨by simp [data_append, hcd], ?_⟩
      simp [data_append, hcd, hcw]
    · rw [if_pos hp]
      constructor <;> simp [data_append] <;> decide
    · rw [if_neg hp]
      refine ⟨by simp [data_append, hcd], ?_⟩
      simp [data_append, hcd, hcw]

/-! ## The scanner state handed to the rest of the input after a chunk -/

/-- Continuation when the chunk ended with an operator match (a closing
parenthesis): its trailing `\s*` has already eaten the whitespace. -/
def skipCont (q2 q1 : Option Char) (rest : List Char) : List String :=
  splitLoopF (skipWs q2 q1 rest).2.2.length [] (skipWs q2 q1 rest).1
    (skipWs q2 q1 rest).2.1 (skipWs q2 q1 rest).2.2

def runCont (t : Ast) (q2 q1 : Option Char) (rest : List Char) : List String :=
  if endsRP t then skipCont q2 q1 rest
  else splitLoopF rest.length (tacc t) q2 q1 rest

lemma runCont_noRP {t : Ast} (h : endsRP t = false) (q2 q1 : Option Char)
    (rest : List Char) :
    runCont t q2 q1 rest = splitLoopF rest.length (tacc t) q2 q1 rest := by
  unfold runCont; rw [h]; rfl

lemma runCont_RP {t : Ast} (h : endsRP t = true) (q2 q1 : Option Char)
    (rest : List Char) : runCont t q2 q1 rest = skipCont q2 q1 rest := by
  unfold runCont; rw [h]; rfl

lemma runCont_node1 {o : Op} {a : Ast} (hp : parenU o a = false)
    (q2 q1 : Option Char) (rest : List Char) :
    runCont (.node1 o a) q2 q1 rest = runCont a q2 q1 rest := by
  unfold runCont
  rw [show endsRP (.node1 o a) = (parenU o a || endsRP a) from rfl, hp,
    show tacc (.node1 o a) = (if parenU o a then [] else tacc a) from rfl, hp]
  rfl

lemma runCont_node2 {o : Op} {a b : Ast} (hp : parenR o b = false)
    (q2 q1 : Option Char) (rest : List Char) :
    runCont (.node2 o a b) q2 q1 rest = runCont b q2 q1 rest := by
  unfold runCont
  rw [show endsRP (.node2 o a b) = (parenR o b || endsRP b) from rfl, hp,
    show tacc (.node2 o a b) = (if parenR o b then [] else tacc b) from rfl, hp]
  rfl

lemma notBlocked_p1 (p2 : Option Char) (c : Char) (h1 : c ≠ 'e') (h2 : c ≠ 'E') :
    lookbehindBlocked p2 (some c) = false := by
  cases p2 <;> simp [lookbehindBlocked, h1, h2]

lemma opHere_lparen (p2 p1 : Option Char) (cs : List Char) :
    opHere p2 p1 ('(' :: cs) = some ("(", cs) :=
  opHere_single p2 p1 '(' cs (by decide) (by decide) (by decide) (by decide)

lemma opHere_rparen (p2 p1 : Option Char) (cs : List Char) :
    opHere p2 p1 (')' :: cs) = some (")", cs) :=
  opHere_single p2 p1 ')' cs (by decide) (by decide) (by decide) (by decide)

lemma opHere_caret (p2 p1 : Option Char) (cs : List Char) :
    opHere p2 p1 ('^' :: cs) = some ("^", cs) :=
  opHere_single p2 p1 '^' cs (by decide) (by decide) (by decide) (by decide)

lemma opHere_dash (p2 p1 : Option Char) (cs : List Char)
    (h : lookbehindBlocked p2 p1 = false) :
    opHere p2 p1 ('-' :: cs) = some ("-", cs) :=
  opHere_pm p2 p1 '-' cs (Or.inr rfl) h

lemma mk_nil_str : String.mk ([] : List Char) = "" := rfl

/-- Closing a parenthesized chunk: flush the pending piece, emit `")"`,
eat trailing whitespace. -/
lemma wrapCont (t : Ast) (hg : GoodB t = true) (q2 q1 : Option Char)
    (rest : List Char) :
    runCont t q2 q1 (')' :: rest) = tstr t :: ")" :: skipCont q1 (some ')') rest := by
  have hstep : ∀ (acc : List Char), acc.dropWhile isWs = tacc t →
      splitLoopF (rest.length + 1) acc q2 q1 (')' :: rest)
        = tstr t :: ")" :: skipCont q1 (some ')') rest := by
    intro acc hacc
    rw [splitLoopF_op rest.length acc q2 q1 ')' rest ")" rest (opHere_rparen q2 q1 rest),
      hacc]
    show tstr t :: ")" :: splitLoopF rest.length []
        (skipWs q1 (some ')') rest).1 (skipWs q1 (some ')') rest).2.1
        (skipWs q1 (some ')') rest).2.2 = _
    unfold skipCont
    rw [splitLoopF_mono rest.length (skipWs q1 (some ')') rest).2.2.length []
      (skipWs q1 (some ')') rest).1 (skipWs q1 (some ')') rest).2.1
      (skipWs q1 (some ')') rest).2.2 (skipWs_len _ _ rest) (le_refl _)]
  by_cases hrp : endsRP t
  · rw [runCont_RP hrp]
    have htc : tacc t = [] := endsRP_tacc t hrp
    unfold skipCont
    rw [skipWs_nonws q2 q1 ')' rest (by decide)]
    show splitLoopF (')' :: rest).length [] q2 q1 (')' :: rest) = _
    rw [show (')' :: rest).length = rest.length + 1 from rfl]
    exact hstep [] (by rw [htc]; rfl)
  · rw [runCont_noRP (Bool.not_eq_true _ ▸ hrp)]
    rw [show (')' :: rest).length = rest.length + 1 from rfl]
    exact hstep (tacc t) (taccClean t hg)

/-- Scanning `"(" ++ s ++ ")"` for a Good chunk with printed form `s`. -/
lemma wrapChunk (t : Ast) (s : String) (hg : GoodB t = true) (hs : unparse t = some s)
    (IH : ∀ p2 p1 : Option Char, lookbehindBlocked p2 p1 = false →
      ∀ (rest : List Char) (fuel : Nat), s.data.length + rest.length ≤ fuel →
      ∃ q2 q1 : Option Char,
        splitLoopF fuel [] p2 p1 (s.data ++ rest) = emits t ++ runCont t q2 q1 rest)
    (p2 p1 : Option Char) (rest : List Char) (fuel : Nat)
    (hfuel : s.data.length + rest.length + 2 ≤ fuel) :
    ∃ q2 q1 : Option Char,
      splitLoopF fuel [] p2 p1 ('(' :: (s.data ++ ')' :: rest))
        = "" :: "(" :: (emits t ++ tstr t :: ")" :: skipCont q2 q1 rest) := by
  obtain ⟨f, rfl⟩ : ∃ f, fuel = f + 1 := ⟨fuel - 1, by omega⟩
  rw [splitLoopF_op f [] p2 p1 '(' _ "(" _ (opHere_lparen p2 p1 _)]
  obtain ⟨hne, hhd⟩ := unparse_head t s hg hs
  obtain ⟨c, cs, hcd⟩ := List.exists_cons_of_ne_nil hne
  have hcw : isWs c = false := by rw [hcd] at hhd; simpa using hhd
  have hz : skipWs (slideWin p2 p1 "(".data).1 (slideWin p2 p1 "(".data).2
      (s.data ++ ')' :: rest) = (p1, some '(', s.data ++ ')' :: rest) := by
    show skipWs p1 (some '(') (s.data ++ ')' :: rest) = _
    rw [hcd, List.cons_append, skipWs_nonws _ _ c _ hcw, ← List.cons_append, ← hcd]
  rw [hz]
  obtain ⟨q2, q1, heq⟩ := IH p1 (some '(')
    (notBlocked_p1 p1 '(' (by decide) (by decide)) (')' :: rest) f
    (by simp only [List.length_cons] at hfuel ⊢; omega)
  refine ⟨q1, some ')', ?_⟩
  show "" :: "(" :: splitLoopF f [] p1 (some '(') (s.data ++ ')' :: rest)
      = "" :: "(" :: (emits t ++ tstr t :: ")" :: skipCont q1 (some ')') rest)
  rw [heq, wrapCont t hg q2 q1 rest]

lemma opTxt_add : opTxt opAdd = "+" := by decide
lemma opTxt_sub : opTxt opSub = "-" := by decide
lemma opTxt_mul : opTxt opMul = "*" := by decide
lemma opTxt_div : opTxt opDiv = "/" := by decide
lemma opTxt_pow : opTxt opPow = "^" := by decide

lemma opHere_five (o : Op)
    (hf : o = opAdd ∨ o = opSub ∨ o = opMul ∨ o = opDiv ∨ o = opPow)
    (q2 : Option Char) (c1 : Char) (h1 : lookbehindBlocked q2 (some c1) = false)
    (rr : List Char) :
    opHere q2 (some c1) ((opTxt o).data ++ rr) = some (opTxt o, rr) := by
  rcases hf with rfl | rfl | rfl | rfl | rfl
  · rw [opTxt_add]; exact opHere_pm q2 (some c1) '+' rr (Or.inl rfl) h1
  · rw [opTxt_sub]; exact opHere_dash q2 (some c1) rr h1
  · rw [opTxt_mul]
    exact opHere_single q2 (some c1) '*' rr (by decide) (by decide) (by decide) (by decide)
  · rw [opTxt_div]
    exact opHere_single q2 (some c1) '/' rr (by decide) (by decide) (by decide) (by decide)
  · rw [opTxt_pow]; exact opHere_caret q2 (some c1) rr

/-- The right operand (with its parentheses, if printed) followed by the
rest of the input. -/
lemma rightChunk (o : Op) (b : Ast) (y : String) (hgb : GoodB b = true)
    (hy : unparse b = some y)
    (IHb : ∀ p2 p1 : Option Char, lookbehindBlocked p2 p1 = false →
      ∀ (rest : List Char) (fuel : Nat), y.data.length + rest.length ≤ fuel →
      ∃ q2 q1 : Option Char,
        splitLoopF fuel [] p2 p1 (y.data ++ rest) = emits b ++ runCont b q2 q1 rest)
    (w2 w1 : Option Char) (hw : lookbehindBlocked w2 w1 = false)
    (rest : List Char) (fuel : Nat)
    (hfuel : ((if parenR o b then '(' :: (y.data ++ [')']) else y.data) ++ rest).length
      ≤ fuel) :
    ∃ q2 q1 : Option Char,
      splitLoopF fuel [] w2 w1
          ((if parenR o b then '(' :: (y.data ++ [')']) else y.data) ++ rest)
        = (if parenR o b then "" :: "(" :: emits b ++ [tstr b, ")"] else emits b)
          ++ (if parenR o b then skipCont q2 q1 rest else runCont b q2 q1 rest) := by
  by_cases hpr : parenR o b
  · have hle : y.data.length + rest.length + 2
        ≤ ((if parenR o b then '(' :: (y.data ++ [')']) else y.data) ++ rest).length := by
      simp only [hpr, reduceIte, List.length_append, List.length_cons]
      omega
    simp only [hpr, reduceIte]
    rw [show ('(' :: (y.data ++ [')'])) ++ rest = '(' :: (y.data ++ ')' :: rest) by simp]
    obtain ⟨q2, q1, heq⟩ := wrapChunk b y hgb hy IHb w2 w1 rest fuel
      (le_trans hle hfuel)
    exact ⟨q2, q1, by rw [heq]; simp⟩
  · have hle : y.data.length + rest.length
        ≤ ((if parenR o b then '(' :: (y.data ++ [')']) else y.data) ++ rest).length := by
      have hpr2 : parenR o b = false := by simpa using hpr
      simp only [hpr2, Bool.false_eq_true, if_false, List.length_append]
      omega
    have hpr2 : parenR o b = false := by simpa using hpr
    simp only [hpr2, Bool.false_eq_true, if_false]
    exact IHb w2 w1 hw rest fuel (le_trans hle hfuel)

/-- Head character of the printed right operand, for the whitespace skip. -/
lemma rightHead (o : Op) (b : Ast) (y : String) (hgb : GoodB b = true)
    (hy : unparse b = some y) (rest : List Char) :
    ∃ c cs, ((if parenR o b then '(' :: (y.data ++ [')']) else y.data) ++ rest) = c :: cs ∧
      isWs c = false := by
  by_cases hpr : parenR o b
  · rw [if_pos hpr]; exact ⟨'(', _, rfl, by decide⟩
  · rw [if_neg hpr]
    obtain ⟨hne, hhd⟩ := unparse_head b y hgb hy
    obtain ⟨c, cs, hcd⟩ := List.exists_cons_of_ne_nil hne
    exact ⟨c, cs ++ rest, by rw [hcd, List.cons_append], by rw [hcd] at hhd; simpa using hhd⟩

/-- Scanning `" o "` (a spaced binary operator) and then the right
operand: the pending piece is flushed, the operator emitted, and the
spaces absorbed. -/
lemma seamSpaced (o : Op)
    (hf : o = opAdd ∨ o = opSub ∨ o = opMul ∨ o = opDiv ∨ o = opPow)
    (b : Ast) (y : String) (hgb : GoodB b = true) (hy : unparse b = some y)
    (IHb : ∀ p2 p1 : Option Char, lookbehindBlocked p2 p1 = false →
      ∀ (rest : List Char) (fuel : Nat), y.data.length + rest.length ≤ fuel →
      ∃ q2 q1 : Option Char,
        splitLoopF fuel [] p2 p1 (y.data ++ rest) = emits b ++ runCont b q2 q1 rest)
    (w2 : Option Char) (acc : List Char) (piece0 : String)
    (hacc : String.mk (acc.dropWhile isWs).reverse = piece0)
    (rest : List Char) (fuel : Nat)
    (hfuel : ((if parenR o b then '(' :: (y.data ++ [')']) else y.data) ++ rest).length + 1
      ≤ fuel) :
    ∃ q2 q1 : Option Char,
      splitLoopF fuel acc w2 (some ' ')
          ((opTxt o).data ++ ' ' ::
            ((if parenR o b then '(' :: (y.data ++ [')']) else y.data) ++ rest))
        = piece0 :: opTxt o ::
            ((if parenR o b then "" :: "(" :: emits b ++ [tstr b, ")"] else emits b)
              ++ (if parenR o b then skipCont q2 q1 rest else runCont b q2 q1 rest)) := by
  obtain ⟨f, rfl⟩ : ∃ f, fuel = f + 1 := ⟨fuel - 1, by omega⟩
  obtain ⟨oc, hoc⟩ : ∃ c, (opTxt o).data = [c] := by
    rcases hf with rfl | rfl | rfl | rfl | rfl
    · exact ⟨'+', by rw [opTxt_add]⟩
    · exact ⟨'-', by rw [opTxt_sub]⟩
    · exact ⟨'*', by rw [opTxt_mul]⟩
    · exact ⟨'/', by rw [opTxt_div]⟩
    · exact ⟨'^', by rw [opTxt_pow]⟩
  have hop : opHere w2 (some ' ')
      ((opTxt o).data ++ (' ' ::
        ((if parenR o b then '(' :: (y.data ++ [')']) else y.data) ++ rest)))
      = some (opTxt o, ' ' ::
        ((if parenR o b then '(' :: (y.data ++ [')']) else y.data) ++ rest)) :=
    opHere_five o hf w2 ' ' (notBlocked_p1 w2 ' ' (by decide) (by decide)) _
  rw [hoc, List.singleton_append] at hop ⊢
  rw [splitLoopF_op f acc w2 (some ' ') oc _ (opTxt o) _ hop, hacc]
  have hsw : slideWin w2 (some ' ') (opTxt o).data = (some ' ', some oc) := by
    rw [hoc]; rfl
  rw [hsw]
  obtain ⟨c, cs, hcons, hcw⟩ := rightHead o b y hgb hy rest
  have hz : skipWs (some ' ') (some oc)
      (' ' :: ((if parenR o b then '(' :: (y.data ++ [')']) else y.data) ++ rest))
      = (some oc, some ' ',
          (if parenR o b then '(' :: (y.data ++ [')']) else y.data) ++ rest) := by
    have h1 : skipWs (some ' ') (some oc)
        (' ' :: ((if parenR o b then '(' :: (y.data ++ [')']) else y.data) ++ rest))
        = skipWs (some oc) (some ' ')
            ((if parenR o b then '(' :: (y.data ++ [')']) else y.data) ++ rest) := rfl
    rw [h1, hcons, skipWs_nonws _ _ c _ hcw, ← hcons]
  rw [hz]
  obtain ⟨q2, q1, heq⟩ := rightChunk o b y hgb hy IHb (some oc) (some ' ')
    (notBlocked_p1 (some oc) ' ' (by decide) (by decide)) rest f (by omega)
  exact ⟨q2, q1, by rw [heq]⟩
lemma seamCaret (o : Op) (hco : opTxt o = "^")
    (b : Ast) (y : String) (hgb : GoodB b = true) (hy : unparse b = some y)
    (IHb : ∀ p2 p1 : Option Char, lookbehindBlocked p2 p1 = false →
      ∀ (rest : List Char) (fuel : Nat), y.data.length + rest.length ≤ fuel →
      ∃ q2 q1 : Option Char,
        splitLoopF fuel [] p2 p1 (y.data ++ rest) = emits b ++ runCont b q2 q1 rest)
    (w2 w1 : Option Char) (acc : List Char) (piece0 : String)
    (hacc : String.mk (acc.dropWhile isWs).reverse = piece0)
    (rest : List Char) (fuel : Nat)
    (hfuel : ((if parenR o b then '(' :: (y.data ++ [')']) else y.data) ++ rest).length + 1
      ≤ fuel) :
    ∃ q2 q1 : Option Char,
      splitLoopF fuel acc w2 w1
          ((opTxt o).data ++
            ((if parenR o b then '(' :: (y.data ++ [')']) else y.data) ++ rest))
        = piece0 :: opTxt o ::
            ((if parenR o b then "" :: "(" :: emits b ++ [tstr b, ")"] else emits b)
              ++ (if parenR o b then skipCont q2 q1 rest else runCont b q2 q1 rest)) := by
  obtain ⟨f, rfl⟩ : ∃ f, fuel = f + 1 := ⟨fuel - 1, by omega⟩
  rw [hco]
  rw [show ("^" : String).data ++
      ((if parenR o b then '(' :: (y.data ++ [')']) else y.data) ++ rest)
      = '^' :: ((if parenR o b then '(' :: (y.data ++ [')']) else y.data) ++ rest)
      from rfl]
  rw [splitLoopF_op f acc w2 w1 '^' _ "^" _ (opHere_caret w2 w1 _), hacc]
  obtain ⟨c, cs, hcons, hcw⟩ := rightHead o b y hgb hy rest
  have hz : skipWs (slideWin w2 w1 ("^" : String).data).1
      (slideWin w2 w1 ("^" : String).data).2
      ((if parenR o b then '(' :: (y.data ++ [')']) else y.data) ++ rest)
      = (w1, some '^',
          (if parenR o b then '(' :: (y.data ++ [')']) else y.data) ++ rest) := by
    show skipWs w1 (some '^') _ = _
    rw [hcons, skipWs_nonws _ _ c _ hcw, ← hcons]
  rw [hz]
  obtain ⟨q2, q1, heq⟩ := rightChunk o b y hgb hy IHb w1 (some '^')
    (notBlocked_p1 w1 '^' (by decide) (by decide)) rest f (by omega)
  exact ⟨q2, q1, by rw [heq]⟩

lemma skipCont_nonws (q2 q1 : Option Char) (c : Char) (L : List Char)
    (h : isWs c = false) :
    skipCont q2 q1 (c :: L) = splitLoopF (c :: L).length [] q2 q1 (c :: L) := by
  unfold skipCont
  rw [skipWs_nonws q2 q1 c L h]

lemma skipCont_space (q2 q1 : Option Char) (c : Char) (L : List Char)
    (h : isWs c = false) :
    skipCont q2 q1 (' ' :: c :: L) = splitLoopF (c :: L).length [] q1 (some ' ') (c :: L) := by
  unfold skipCont
  have h1 : skipWs q2 q1 (' ' :: c :: L) = skipWs q1 (some ' ') (c :: L) := rfl
  rw [h1, skipWs_nonws _ _ c _ h]

/-- The scanner state a chunk leaves behind, entering a spaced operator. -/
lemma runCont_seam_space (a : Ast) (hga : GoodB a = true) (q2 q1 : Option Char)
    (oc : Char) (hocw : isWs oc = false) (L : List Char) :
    ∃ acc, runCont a q2 q1 (' ' :: oc :: L)
        = splitLoopF (oc :: L).length acc q1 (some ' ') (oc :: L)
      ∧ String.mk (acc.dropWhile isWs).reverse = tstr a := by
  by_cases hrp : endsRP a
  · rw [runCont_RP hrp, skipCont_space q2 q1 oc L hocw]
    exact ⟨[], rfl, by rw [tstr, endsRP_tacc a hrp]; rfl⟩
  · rw [runCont_noRP (by simpa using hrp)]
    rw [show (' ' :: oc :: L).length = (oc :: L).length + 1 from rfl,
      splitLoopF_noop _ (tacc a) q2 q1 ' ' _
        (opHere_none_of q2 q1 ' ' _ (by decide) (Or.inl (by decide)))]
    exact ⟨' ' :: tacc a, rfl, by
      rw [List.dropWhile_cons, if_pos (by decide), taccClean a hga]; rfl⟩

/-- The scanner state a chunk leaves behind, entering `^`. -/
lemma runCont_seam_caret (a : Ast) (hga : GoodB a = true) (q2 q1 : Option Char)
    (L : List Char) :
    ∃ acc w2 w1, runCont a q2 q1 ('^' :: L)
        = splitLoopF ('^' :: L).length acc w2 w1 ('^' :: L)
      ∧ String.mk (acc.dropWhile isWs).reverse = tstr a := by
  by_cases hrp : endsRP a
  · rw [runCont_RP hrp, skipCont_nonws q2 q1 '^' L (by decide)]
    exact ⟨[], q2, q1, rfl, by rw [tstr, endsRP_tacc a hrp]; rfl⟩
  · rw [runCont_noRP (by simpa using hrp)]
    exact ⟨tacc a, q2, q1, rfl, by rw [taccClean a hga]; rfl⟩

lemma space_data : (" " : String).data = [' '] := rfl
lemma lpar_data : ("(" : String).data = ['('] := rfl
lemma rpar_data : (")" : String).data = [')'] := rfl
lemma caret_data : ("^" : String).data = ['^'] := rfl
lemma dash_data : ("-" : String).data = ['-'] := rfl

set_option maxHeartbeats 1600000 in
/-- The splitter consumes the printed form of one Good chunk: it emits
exactly `emits t` and hands the trailing scanner state to the rest of
the input. -/
lemma splitRun : ∀ t : Ast, GoodB t = true → ∀ s : String, unparse t = some s →
    ∀ p2 p1 : Option Char, lookbehindBlocked p2 p1 = false →
    ∀ (rest : List Char) (fuel : Nat), s.data.length + rest.length ≤ fuel →
    ∃ q2 q1 : Option Char,
      splitLoopF fuel [] p2 p1 (s.data ++ rest) = emits t ++ runCont t q2 q1 rest := by
  intro t
  induction t with
  | leaf s0 =>
    intro hg s hs p2 p1 hbl rest fuel hfuel
    have hs0 : s0 = s := by simpa [unparse] using hs
    subst hs0
    refine ⟨(slideWin p2 p1 s0.data).1, (slideWin p2 p1 s0.data).2, ?_⟩
    rw [show emits (.leaf s0) = [] from rfl, List.nil_append,
      runCont_noRP (show endsRP (.leaf s0) = false from rfl),
      show fuel = s0.data.length + (fuel - s0.data.length) by omega,
      leafChunk s0.data (goodLeaf_parts hg).1 p2 p1 [] rest _, List.append_nil,
      show tacc (.leaf s0) = s0.data.reverse from rfl]
    exact splitLoopF_mono _ rest.length _ _ _ rest (by omega) (le_refl _)
  | node0 o =>
    intro hg
    exact Bool.noConfusion (show false = true from hg)
  | node1 o a ih =>
    intro hg s hs p2 p1 hbl rest fuel hfuel
    obtain ⟨ho, hga⟩ := goodB_node1 hg
    subst ho
    obtain ⟨x, hx, hsx⟩ := unparse_node1 hs
    have IHa := fun p2 p1 hb rest fuel hfu => ih hga x hx p2 p1 hb rest fuel hfu
    by_cases hp : parenU opNeg a
    · rw [if_pos hp] at hsx
      subst hsx
      have hdata : (opNeg.op ++ "(" ++ x ++ ")").data ++ rest
          = '-' :: ('(' :: (x.data ++ ')' :: rest)) := by
        simp [data_append, opNeg, lpar_data, rpar_data]
      have hlen : (opNeg.op ++ "(" ++ x ++ ")").data.length = x.data.length + 3 := by
        rw [show (opNeg.op ++ "(" ++ x ++ ")").data = '-' :: ('(' :: (x.data ++ [')']))
          by simp [data_append, opNeg, lpar_data, rpar_data]]
        simp
      rw [hlen] at hfuel
      rw [hdata]
      obtain ⟨f, rfl⟩ : ∃ f, fuel = f + 1 := ⟨fuel - 1, by omega⟩
      rw [splitLoopF_op f [] p2 p1 '-' _ "-" _ (opHere_dash p2 p1 _ hbl)]
      have hz : skipWs (slideWin p2 p1 ("-" : String).data).1
          (slideWin p2 p1 ("-" : String).data).2 ('(' :: (x.data ++ ')' :: rest))
          = (p1, some '-', '(' :: (x.data ++ ')' :: rest)) := by
        show skipWs p1 (some '-') _ = _
        exact skipWs_nonws _ _ '(' _ (by decide)
      rw [hz]
      obtain ⟨q2, q1, heq⟩ := wrapChunk a x hga hx IHa p1 (some '-') rest f (by omega)
      refine ⟨q2, q1, ?_⟩
      show "" :: "-" :: splitLoopF f [] p1 (some '-') ('(' :: (x.data ++ ')' :: rest))
          = emits (.node1 opNeg a) ++ runCont (.node1 opNeg a) q2 q1 rest
      rw [heq,
        runCont_RP (show endsRP (.node1 opNeg a) = true by
          rw [show endsRP (.node1 opNeg a) = (parenU opNeg a || endsRP a) from rfl, hp]
          rfl),
        show emits (.node1 opNeg a)
          = (if parenU opNeg a then ["", opNeg.op, "", "("] ++ emits a ++ [tstr a, ")"]
             else ["", opNeg.op] ++ emits a) from rfl]
      simp only [hp, reduceIte]
      simp [opNeg]
    · have hp2 : parenU opNeg a = false := by simpa using hp
      simp only [hp2, Bool.false_eq_true, if_false] at hsx
      subst hsx
      have hdata : (opNeg.op ++ x).data ++ rest = '-' :: (x.data ++ rest) := by
        simp [data_append, opNeg]
      have hlen : (opNeg.op ++ x).data.length = x.data.length + 1 := by
        rw [show (opNeg.op ++ x).data = '-' :: x.data by simp [data_append, opNeg]]
        simp
      rw [hlen] at hfuel
      rw [hdata]
      obtain ⟨f, rfl⟩ : ∃ f, fuel = f + 1 := ⟨fuel - 1, by omega⟩
      rw [splitLoopF_op f [] p2 p1 '-' _ "-" _ (opHere_dash p2 p1 _ hbl)]
      obtain ⟨hne, hhd⟩ := unparse_head a x hga hx
      obtain ⟨c, cs, hcd⟩ := List.exists_cons_of_ne_nil hne
      have hcw : isWs c = false := by rw [hcd] at hhd; simpa using hhd
      have hz : skipWs (slideWin p2 p1 ("-" : String).data).1
          (slideWin p2 p1 ("-" : String).data).2 (x.data ++ rest)
          = (p1, some '-', x.data ++ rest) := by
        show skipWs p1 (some '-') _ = _
        rw [hcd, List.cons_append, skipWs_nonws _ _ c _ hcw, ← List.cons_append, ← hcd]
      rw [hz]
      obtain ⟨q2, q1, heq⟩ := IHa p1 (some '-')
        (notBlocked_p1 p1 '-' (by decide) (by decide)) rest f (by omega)
      refine ⟨q2, q1, ?_⟩
      show "" :: "-" :: splitLoopF f [] p1 (some '-') (x.data ++ rest)
          = emits (.node1 opNeg a) ++ runCont (.node1 opNeg a) q2 q1 rest
      rw [heq, runCont_node1 hp2,
        show emits (.node1 opNeg a)
          = (if parenU opNeg a then ["", opNeg.op, "", "("] ++ emits a ++ [tstr a, ")"]
             else ["", opNeg.op] ++ emits a) from rfl]
      simp only [hp2, Bool.false_eq_true, if_false]
      simp [opNeg]
  | node2 o a b iha ihb =>
    intro hg s hs p2 p1 hbl rest fuel hfuel
    obtain ⟨hf, hga, hgb⟩ := goodB_node2 hg
    obtain ⟨x, y, hx, hy, hsx⟩ := unparse_node2 hs
    have IHa := fun p2 p1 hb rest fuel hfu => iha hga x hx p2 p1 hb rest fuel hfu
    have IHb := fun p2 p1 hb rest fuel hfu => ihb hgb y hy p2 p1 hb rest fuel hfu
    obtain ⟨oc, hoc, hocw⟩ : ∃ c, (opTxt o).data = [c] ∧ isWs c = false := by
      rcases hf with rfl | rfl | rfl | rfl | rfl
      · exact ⟨'+', by rw [opTxt_add], by decide⟩
      · exact ⟨'-', by rw [opTxt_sub], by decide⟩
      · exact ⟨'*', by rw [opTxt_mul], by decide⟩
      · exact ⟨'/', by rw [opTxt_div], by decide⟩
      · exact ⟨'^', by rw [opTxt_pow], by decide⟩
    have hyd : (if parenR o b then "(" ++ y ++ ")" else y).data
        = (if parenR o b then '(' :: (y.data ++ [')']) else y.data) := by
      by_cases hpr : parenR o b
      · simp only [hpr, reduceIte]
        simp [data_append, lpar_data, rpar_data]
      · have h2 : parenR o b = false := by simpa using hpr
        simp only [h2, Bool.false_eq_true, if_false]
    have hfin : ∀ q2 q1 : Option Char,
        emits (.node2 o a b) ++ runCont (.node2 o a b) q2 q1 rest
          = (if parenL o a then ["", "("] ++ emits a ++ [tstr a, ")", ""]
             else emits a ++ [tstr a])
            ++ opTxt o ::
              ((if parenR o b then "" :: "(" :: emits b ++ [tstr b, ")"] else emits b)
                ++ (if parenR o b then skipCont q2 q1 rest else runCont b q2 q1 rest)) := by
      intro q2 q1
      rw [show emits (.node2 o a b)
          = (if parenL o a then ["", "("] ++ emits a ++ [tstr a, ")", ""]
             else emits a ++ [tstr a])
            ++ opTxt o
            :: (if parenR o b then ["", "("] ++ emits b ++ [tstr b, ")"] else emits b)
          from rfl]
      by_cases hpr : parenR o b
      · rw [runCont_RP (show endsRP (.node2 o a b) = true by
          rw [show endsRP (.node2 o a b) = (parenR o b || endsRP b) from rfl, hpr]; rfl)]
        simp only [hpr, reduceIte]
        simp [List.append_assoc]
      · have h2 : parenR o b = false := by simpa using hpr
        rw [runCont_node2 h2]
        simp only [h2, Bool.false_eq_true, if_false]
        simp [List.append_assoc]
    by_cases hcar : opTxt o = "^"
    · rw [if_pos hcar] at hsx
      subst hsx
      have hocd : (opTxt o).data = ['^'] := by rw [hcar]
      by_cases hpl : parenL o a
      · simp only [hpl, reduceIte] at hfuel ⊢
        have hdata : (("(" ++ x ++ ")") ++ "^" ++
              (if parenR o b then "(" ++ y ++ ")" else y)).data ++ rest
            = '(' :: (x.data ++ ')' ::
                ('^' :: ((if parenR o b then '(' :: (y.data ++ [')']) else y.data) ++ rest))) := by
          simp [data_append, hyd, lpar_data, rpar_data, caret_data]
        have htot : x.data.length +
            ('^' :: ((if parenR o b then '(' :: (y.data ++ [')']) else y.data) ++ rest)).length
            + 2 ≤ fuel := by
          have h1 := congrArg List.length hdata
          simp only [List.length_append, List.length_cons] at h1 hfuel ⊢
          omega
        rw [hdata]
        obtain ⟨q2w, q1w, heqw⟩ := wrapChunk a x hga hx IHa p2 p1 _ fuel htot
        rw [heqw, skipCont_nonws q2w q1w '^' _ (by decide)]
        obtain ⟨q2f, q1f, heqf⟩ := seamCaret o hcar b y hgb hy IHb q2w q1w [] "" rfl
          rest ('^' :: ((if parenR o b then '(' :: (y.data ++ [')']) else y.data) ++ rest)).length
          (by simp only [List.length_cons]; try omega)
        rw [hocd, List.singleton_append] at heqf
        refine ⟨q2f, q1f, ?_⟩
        rw [heqf, hfin q2f q1f]
        simp only [hpl, reduceIte]
        simp [List.append_assoc]
      · have hpl2 : parenL o a = false := by simpa using hpl
        simp only [hpl2, Bool.false_eq_true, if_false] at hfuel ⊢
        have hdata : (x ++ "^" ++
              (if parenR o b then "(" ++ y ++ ")" else y)).data ++ rest
            = x.data ++
                ('^' :: ((if parenR o b then '(' :: (y.data ++ [')']) else y.data) ++ rest)) := by
          simp [data_append, hyd, caret_data]
        have htot : x.data.length +
            ('^' :: ((if parenR o b then '(' :: (y.data ++ [')']) else y.data) ++ rest)).length
            ≤ fuel := by
          have h1 := congrArg List.length hdata
          simp only [List.length_append, List.length_cons] at h1 hfuel ⊢
          omega
        rw [hdata]
        obtain ⟨q2a, q1a, heqa⟩ := IHa p2 p1 hbl _ fuel htot
        obtain ⟨acc, w2, w1, hrc, hacc⟩ := runCont_seam_caret a hga q2a q1a
          ((if parenR o b then '(' :: (y.data ++ [')']) else y.data) ++ rest)
        rw [heqa, hrc]
        obtain ⟨q2f, q1f, heqf⟩ := seamCaret o hcar b y hgb hy IHb w2 w1 acc (tstr a) hacc
          rest ('^' :: ((if parenR o b then '(' :: (y.data ++ [')']) else y.data) ++ rest)).length
          (by simp only [List.length_cons]; try omega)
        rw [hocd, List.singleton_append] at heqf
        refine ⟨q2f, q1f, ?_⟩
        rw [heqf, hfin q2f q1f]
        simp only [hpl2, Bool.false_eq_true, if_false]
        simp [List.append_assoc]
    · rw [if_neg hcar] at hsx
      subst hsx
      by_cases hpl : parenL o a
      · simp only [hpl, reduceIte] at hfuel ⊢
        have hdata : (("(" ++ x ++ ")") ++ " " ++ opTxt o ++ " " ++
              (if parenR o b then "(" ++ y ++ ")" else y)).data ++ rest
            = '(' :: (x.data ++ ')' ::
                (' ' :: (oc :: (' ' ::
                  ((if parenR o b then '(' :: (y.data ++ [')']) else y.data) ++ rest))))) := by
          simp [data_append, hyd, lpar_data, rpar_data, space_data, hoc]
        have htot : x.data.length +
            (' ' :: (oc :: (' ' ::
              ((if parenR o b then '(' :: (y.data ++ [')']) else y.data) ++ rest)))).length
            + 2 ≤ fuel := by
          have h1 := congrArg List.length hdata
          simp only [List.length_append, List.length_cons] at h1 hfuel ⊢
          omega
        rw [hdata]
        obtain ⟨q2w, q1w, heqw⟩ := wrapChunk a x hga hx IHa p2 p1 _ fuel htot
        rw [heqw, skipCont_space q2w q1w oc _ hocw]
        obtain ⟨q2f, q1f, heqf⟩ := seamSpaced o hf b y hgb hy IHb q1w [] "" rfl
          rest (oc :: (' ' ::
            ((if parenR o b then '(' :: (y.data ++ [')']) else y.data) ++ rest))).length
          (by simp only [List.length_cons]; try omega)
        rw [hoc, List.singleton_append] at heqf
        refine ⟨q2f, q1f, ?_⟩
        rw [heqf, hfin q2f q1f]
        simp only [hpl, reduceIte]
        simp [List.append_assoc]
      · have hpl2 : parenL o a = false := by simpa using hpl
        simp only [hpl2, Bool.false_eq_true, if_false] at hfuel ⊢
        have hdata : (x ++ " " ++ opTxt o ++ " " ++
              (if parenR o b then "(" ++ y ++ ")" else y)).data ++ rest
            = x.data ++
                (' ' :: (oc :: (' ' ::
                  ((if parenR o b then '(' :: (y.data ++ [')']) else y.data) ++ rest)))) := by
          simp [data_append, hyd, space_data, hoc]
        have htot : x.data.length +
            (' ' :: (oc :: (' ' ::
              ((if parenR o b then '(' :: (y.data ++ [')']) else y.data) ++ rest)))).length
            ≤ fuel := by
          have h1 := congrArg List.length hdata
          simp only [List.length_append, List.length_cons] at h1 hfuel ⊢
          omega
        rw [hdata]
        obtain ⟨q2a, q1a, heqa⟩ := IHa p2 p1 hbl _ fuel htot
        obtain ⟨acc, hrc, hacc⟩ := runCont_seam_space a hga q2a q1a oc hocw
          (' ' :: ((if parenR o b then '(' :: (y.data ++ [')']) else y.data) ++ rest))
        rw [heqa, hrc]
        obtain ⟨q2f, q1f, heqf⟩ := seamSpaced o hf b y hgb hy IHb q1a acc (tstr a) hacc
          rest (oc :: (' ' ::
            ((if parenR o b then '(' :: (y.data ++ [')']) else y.data) ++ rest))).length
          (by simp only [List.length_cons]; try omega)
        rw [hoc, List.singleton_append] at heqf
        refine ⟨q2f, q1f, ?_⟩
        rw [heqf, hfin q2f q1f]
        simp only [hpl2, Bool.false_eq_true, if_false]
        simp [List.append_assoc]

/-! ## `pySplit` and `lex` on a printed Good tree -/

lemma pySplit_good (t : Ast) (s : String) (hg : GoodB t = true)
    (hs : unparse t = some s) :
    pySplit s = emits t ++ [tstr t] := by
  unfold pySplit
  obtain ⟨q2, q1, heq⟩ := splitRun t hg s hs none none rfl [] s.data.length (by simp)
  rw [List.append_nil] at heq
  rw [heq]
  by_cases hrp : endsRP t
  · rw [runCont_RP hrp]
    unfold skipCont
    rw [show skipWs q2 q1 [] = (q1, none, []) from rfl, tstr, endsRP_tacc t hrp]
    rfl
  · rw [runCont_noRP (by simpa using hrp)]
    rfl

lemma tstr_leaf (s : String) : tstr (.leaf s) = s := by
  obtain ⟨l⟩ := s
  show String.mk (l.reverse.reverse) = _
  rw [List.reverse_reverse]

lemma goodLeaf_ne (s : String) (h : GoodLeaf s = true) : s ≠ "" := by
  intro he
  subst he
  exact Bool.noConfusion (show false = true from (goodLeaf_parts h).1)

lemma tokCanon_dash : tokCanon "-" = "-" := by decide
lemma tokCanon_lpar : tokCanon "(" = "(" := by decide
lemma tokCanon_rpar : tokCanon ")" = ")" := by decide
lemma tokCanon_plus : tokCanon "+" = "+" := by decide
lemma tokCanon_star : tokCanon "*" = "*" := by decide
lemma tokCanon_slash : tokCanon "/" = "/" := by decide
lemma tokCanon_caret : tokCanon "^" = "^" := by decide

lemma opTxt_facts (o : Op)
    (hf : o = opAdd ∨ o = opSub ∨ o = opMul ∨ o = opDiv ∨ o = opPow) :
    opTxt o ≠ "" ∧ tokCanon (opTxt o) = opTxt o := by
  rcases hf with rfl | rfl | rfl | rfl | rfl
  · rw [opTxt_add]; exact ⟨by decide, tokCanon_plus⟩
  · rw [opTxt_sub]; exact ⟨by decide, tokCanon_dash⟩
  · rw [opTxt_mul]; exact ⟨by decide, tokCanon_star⟩
  · rw [opTxt_div]; exact ⟨by decide, tokCanon_slash⟩
  · rw [opTxt_pow]; exact ⟨by decide, tokCanon_caret⟩

lemma filter_skip (l : List String) :
    List.filter (fun p => p ≠ "") ("" :: l) = List.filter (fun p => p ≠ "") l := by
  simp

lemma filter_keep (s : String) (hs : s ≠ "") (l : List String) :
    List.filter (fun p => p ≠ "") (s :: l) = s :: List.filter (fun p => p ≠ "") l := by
  simp [hs]

lemma filtmap_good : ∀ t : Ast, GoodB t = true → ∀ extra : List String,
    ((emits t ++ tstr t :: extra).filter (fun p => p ≠ "")).map
        (fun p => Token.str (tokCanon p))
      = toks t ++ ((extra.filter (fun p => p ≠ "")).map (fun p => Token.str (tokCanon p))) := by
  intro t
  induction t with
  | leaf s =>
    intro hg extra
    rw [show emits (.leaf s) = [] from rfl, List.nil_append, tstr_leaf,
      show toks (.leaf s) = [Token.str s] from rfl,
      filter_keep s (goodLeaf_ne s hg), List.map_cons, (goodLeaf_parts hg).2.2]
    rfl
  | node0 o => intro hg; exact Bool.noConfusion (show false = true from hg)
  | node1 o a ih =>
    intro hg extra
    obtain ⟨ho, hga⟩ := goodB_node1 hg
    subst ho
    rw [show toks (.node1 opNeg a)
        = .str opNeg.op ::
            (if parenU opNeg a then .str "(" :: toks a ++ [.str ")"] else toks a)
        from rfl]
    by_cases hp : parenU opNeg a
    · have htst : tstr (.node1 opNeg a) = "" := by
        rw [tstr, show tacc (.node1 opNeg a) = (if parenU opNeg a then [] else tacc a)
          from rfl, if_pos hp]
        rfl
      have hre : emits (.node1 opNeg a) ++ tstr (.node1 opNeg a) :: extra
          = "" :: "-" :: "" :: "(" :: (emits a ++ tstr a :: (")" :: "" :: extra)) := by
        rw [htst, show emits (.node1 opNeg a)
          = (if parenU opNeg a then ["", opNeg.op, "", "("] ++ emits a ++ [tstr a, ")"]
             else ["", opNeg.op] ++ emits a) from rfl, if_pos hp]
        simp [opNeg]
      rw [hre, filter_skip, filter_keep "-" (by decide), filter_skip,
        filter_keep "(" (by decide), List.map_cons, List.map_cons,
        ih hga (")" :: "" :: extra),
        filter_keep ")" (by decide), filter_skip, List.map_cons,
        tokCanon_dash, tokCanon_lpar, tokCanon_rpar]
      simp only [hp, reduceIte]
      simp [opNeg]
    · have hp2 : parenU opNeg a = false := by simpa using hp
      have htst : tstr (.node1 opNeg a) = tstr a := by
        rw [tstr, tstr, show tacc (.node1 opNeg a)
          = (if parenU opNeg a then [] else tacc a) from rfl]
        simp only [hp2, Bool.false_eq_true, if_false]
      have hre : emits (.node1 opNeg a) ++ tstr (.node1 opNeg a) :: extra
          = "" :: "-" :: (emits a ++ tstr a :: extra) := by
        rw [htst, show emits (.node1 opNeg a)
          = (if parenU opNeg a then ["", opNeg.op, "", "("] ++ emits a ++ [tstr a, ")"]
             else ["", opNeg.op] ++ emits a) from rfl]
        simp only [hp2, Bool.false_eq_true, if_false]
        simp [opNeg]
      rw [hre, filter_skip, filter_keep "-" (by decide), List.map_cons,
        ih hga extra, tokCanon_dash]
      simp only [hp2, Bool.false_eq_true, if_false]
      simp [opNeg]
  | node2 o a b iha ihb =>
    intro hg extra
    obtain ⟨hf, hga, hgb⟩ := goodB_node2 hg
    obtain ⟨hone, htc⟩ := opTxt_facts o hf
    rw [show toks (.node2 o a b)
        = (if parenL o a then .str "(" :: toks a ++ [.str ")"] else toks a)
          ++ .str (opTxt o)
          :: (if parenR o b then .str "(" :: toks b ++ [.str ")"] else toks b)
        from rfl]
    have hmidR : ∀ ex2 : List String,
        ((opTxt o :: ((if parenR o b then ["", "("] ++ emits b ++ [tstr b, ")"]
            else emits b) ++ tstr (.node2 o a b) :: ex2)).filter (fun p => p ≠ "")).map
          (fun p => Token.str (tokCanon p))
        = .str (opTxt o)
          :: ((if parenR o b then .str "(" :: toks b ++ [.str ")"] else toks b)
            ++ ((ex2.filter (fun p => p ≠ "")).map (fun p => Token.str (tokCanon p)))) := by
      intro ex2
      by_cases hpr : parenR o b
      · have htst : tstr (.node2 o a b) = "" := by
          rw [tstr, show tacc (.node2 o a b) = (if parenR o b then [] else tacc b)
            from rfl, if_pos hpr]
          rfl
        have hre : opTxt o :: ((if parenR o b then ["", "("] ++ emits b ++ [tstr b, ")"]
              else emits b) ++ tstr (.node2 o a b) :: ex2)
            = opTxt o :: "" :: "(" :: (emits b ++ tstr b :: (")" :: "" :: ex2)) := by
          rw [htst]
          simp only [hpr, reduceIte]
          simp
        rw [hre, filter_keep (opTxt o) hone, filter_skip, filter_keep "(" (by decide),
          List.map_cons, List.map_cons, ihb hgb (")" :: "" :: ex2),
          filter_keep ")" (by decide), filter_skip, List.map_cons,
          htc, tokCanon_lpar, tokCanon_rpar]
        simp only [hpr, reduceIte]
        simp
      · have hpr2 : parenR o b = false := by simpa using hpr
        have htst : tstr (.node2 o a b) = tstr b := by
          rw [tstr, tstr, show tacc (.node2 o a b)
            = (if parenR o b then [] else tacc b) from rfl]
          simp only [hpr2, Bool.false_eq_true, if_false]
        have hre : opTxt o :: ((if parenR o b then ["", "("] ++ emits b ++ [tstr b, ")"]
              else emits b) ++ tstr (.node2 o a b) :: ex2)
            = opTxt o :: (emits b ++ tstr b :: ex2) := by
          rw [htst]
          simp only [hpr2, Bool.false_eq_true, if_false]
        rw [hre, filter_keep (opTxt o) hone, List.map_cons, ihb hgb ex2, htc]
        simp only [hpr2, Bool.false_eq_true, if_false]
    by_cases hpl : parenL o a
    · have hre : emits (.node2 o a b) ++ tstr (.node2 o a b) :: extra
          = "" :: "(" :: (emits a ++ tstr a :: (")" :: "" ::
              (opTxt o :: ((if parenR o b then ["", "("] ++ emits b ++ [tstr b, ")"]
                else emits b) ++ tstr (.node2 o a b) :: extra)))) := by
        rw [show emits (.node2 o a b)
            = (if parenL o a then ["", "("] ++ emits a ++ [tstr a, ")", ""]
               else emits a ++ [tstr a])
              ++ opTxt o
              :: (if parenR o b then ["", "("] ++ emits b ++ [tstr b, ")"] else emits b)
            from rfl]
        simp only [hpl, reduceIte]
        simp
      rw [hre, filter_skip, filter_keep "(" (by decide), List.map_cons,
        iha hga (")" :: "" ::
          (opTxt o :: ((if parenR o b then ["", "("] ++ emits b ++ [tstr b, ")"]
            else emits b) ++ tstr (.node2 o a b) :: extra))),
        filter_keep ")" (by decide), filter_skip, List.map_cons,
        hmidR extra, tokCanon_lpar, tokCanon_rpar]
      simp only [hpl, reduceIte]
      simp
    · have hpl2 : parenL o a = false := by simpa using hpl
      have hre : emits (.node2 o a b) ++ tstr (.node2 o a b) :: extra
          = emits a ++ tstr a ::
              (opTxt o :: ((if parenR o b then ["", "("] ++ emits b ++ [tstr b, ")"]
                else emits b) ++ tstr (.node2 o a b) :: extra)) := by
        rw [show emits (.node2 o a b)
            = (if parenL o a then ["", "("] ++ emits a ++ [tstr a, ")", ""]
               else emits a ++ [tstr a])
              ++ opTxt o
              :: (if parenR o b then ["", "("] ++ emits b ++ [tstr b, ")"] else emits b)
            from rfl]
        simp only [hpl2, Bool.false_eq_true, if_false]
        simp
      rw [hre,
        iha hga (opTxt o :: ((if parenR o b then ["", "("] ++ emits b ++ [tstr b, ")"]
          else emits b) ++ tstr (.node2 o a b) :: extra)),
        hmidR extra]
      simp only [hpl2, Bool.false_eq_true, if_false]
      simp

lemma lex_good (t : Ast) (s : String) (hg : GoodB t = true)
    (hs : unparse t = some s) :
    lex s = toks t ++ [Token.eof] := by
  have h1 : lex s
      = ((pySplit s).filter (fun p => p ≠ "")).map
          (fun p => Token.str (tokCanon p)) ++ [Token.eof] := rfl
  rw [h1, pySplit_good t s hg hs,
    show emits t ++ [tstr t] = emits t ++ tstr t :: ([] : List String) from rfl,
    filtmap_good t hg []]
  simp

/-! ## One-step unfolding equations for the parser -/

lemma parseF_zero (ts : List Token) (w : Token) (E : List Ast) (O : List Op) (L : Bool) :
    parseF 0 ts w E O L = .error "StopIteration" := rfl

lemma parseF_nil (f : Nat) (w : Token) (E : List Ast) (O : List Op) (L : Bool) :
    parseF (f + 1) [] w E O L = .error "StopIteration" := rfl

lemma parseF_cons (f : Nat) (x : Token) (rest : List Token) (w : Token)
    (E : List Ast) (O : List Op) (L : Bool) :
    parseF (f + 1) (x :: rest) w E O L
      = if x = w then
          match O.foldl (fun es o => o.apply es) E with
          | [a] => .ok (a, rest)
          | _ => .error "ValueError: not exactly one operand left"
        else
          match x with
          | .eof => .error "TypeError: unhashable type"
          | .str s =>
            match OPS s with
            | some o =>
              if L then
                if o.assoc = Assoc.u then parseF f rest w E (o :: O) true
                else .error "AssertionError"
              else
                parseF f rest w (popLoop (if s = "-" then opSub else o) O E).2
                  ((if s = "-" then opSub else o) :: (popLoop (if s = "-" then opSub else o) O E).1)
                  true
            | none =>
              if s = "(" then
                match parseF f rest (.str ")") [] [] true with
                | .error e => .error e
                | .ok (sub, rest2) => parseF f rest2 w (sub :: E) O false
              else parseF f rest w (.leaf s :: E) O false := rfl

lemma parseF_wait_ok (f : Nat) (x : Token) (rest : List Token) (w : Token)
    (E : List Ast) (O : List Op) (L : Bool) (a : Ast) (hx : x = w)
    (hfold : O.foldl (fun es o => o.apply es) E = [a]) :
    parseF (f + 1) (x :: rest) w E O L = .ok (a, rest) := by
  rw [parseF_cons, if_pos hx, hfold]

lemma parseF_step_leaf (f : Nat) (s : String) (rest : List Token) (w : Token)
    (E : List Ast) (O : List Op) (L : Bool) (hw : Token.str s ≠ w)
    (hop : OPS s = none) (hpar : s ≠ "(") :
    parseF (f + 1) (.str s :: rest) w E O L = parseF f rest w (.leaf s :: E) O false := by
  rw [parseF_cons, if_neg hw]
  dsimp only
  rw [hop]
  dsimp only
  rw [if_neg hpar]

lemma parseF_step_uop (f : Nat) (rest : List Token) (w : Token)
    (E : List Ast) (O : List Op) (hw : Token.str "-" ≠ w) :
    parseF (f + 1) (.str "-" :: rest) w E O true = parseF f rest w E (opNeg :: O) true := by
  rw [parseF_cons, if_neg hw]
  dsimp only
  rw [show OPS "-" = some opNeg from rfl]
  dsimp only
  rw [if_pos rfl, if_pos (show opNeg.assoc = Assoc.u from rfl)]

lemma parseF_step_open (f : Nat) (rest : List Token) (w : Token)
    (E : List Ast) (O : List Op) (L : Bool) (hw : Token.str "(" ≠ w) :
    parseF (f + 1) (.str "(" :: rest) w E O L
      = match parseF f rest (.str ")") [] [] true with
        | .error e => .error e
        | .ok (sub, rest2) => parseF f rest2 w (sub :: E) O false := by
  rw [parseF_cons, if_neg hw]
  dsimp only
  rw [show OPS "(" = none from rfl]
  dsimp only
  rw [if_pos rfl]

lemma parseF_step_five (f : Nat) (rest : List Token) (w : Token)
    (E : List Ast) (O : List Op) (o : Op)
    (hf : o = opAdd ∨ o = opSub ∨ o = opMul ∨ o = opDiv ∨ o = opPow)
    (hw : Token.str (opTxt o) ≠ w) :
    parseF (f + 1) (.str (opTxt o) :: rest) w E O false
      = parseF f rest w (popLoop o O E).2 (o :: (popLoop o O E).1) true := by
  rcases hf with rfl | rfl | rfl | rfl | rfl
  · rw [opTxt_add] at hw ⊢
    rw [parseF_cons, if_neg hw]
    dsimp only
    rw [show OPS "+" = some opAdd from rfl]
    dsimp only
    rw [if_neg (show ¬(false = true) by simp), if_neg (show ("+" : String) ≠ "-" by decide)]
  · rw [opTxt_sub] at hw ⊢
    rw [parseF_cons, if_neg hw]
    dsimp only
    rw [show OPS "-" = some opNeg from rfl]
    dsimp only
    rw [if_neg (show ¬(false = true) by simp), if_pos (show ("-" : String) = "-" from rfl)]
  · rw [opTxt_mul] at hw ⊢
    rw [parseF_cons, if_neg hw]
    dsimp only
    rw [show OPS "*" = some opMul from rfl]
    dsimp only
    rw [if_neg (show ¬(false = true) by simp), if_neg (show ("*" : String) ≠ "-" by decide)]
  · rw [opTxt_div] at hw ⊢
    rw [parseF_cons, if_neg hw]
    dsimp only
    rw [show OPS "/" = some opDiv from rfl]
    dsimp only
    rw [if_neg (show ¬(false = true) by simp), if_neg (show ("/" : String) ≠ "-" by decide)]
  · rw [opTxt_pow] at hw ⊢
    rw [parseF_cons, if_neg hw]
    dsimp only
    rw [show OPS "^" = some opPow from rfl]
    dsimp only
    rw [if_neg (show ¬(false = true) by simp), if_neg (show ("^" : String) ≠ "-" by decide)]

lemma parseF_consumed : ∀ (f : Nat) (ts : List Token) (w : Token) (E : List Ast)
    (O : List Op) (L : Bool) (a : Ast) (r2 : List Token),
    parseF f ts w E O L = .ok (a, r2) → r2.length < ts.length := by
  intro f
  induction f with
  | zero => intro ts w E O L a r2 h; rw [parseF_zero] at h; cases h
  | succ f ih =>
    intro ts w E O L a r2 h
    cases ts with
    | nil => rw [parseF_nil] at h; cases h
    | cons x rest =>
      rw [parseF_cons] at h
      by_cases hx : x = w
      · rw [if_pos hx] at h
        cases hm : O.foldl (fun es o => o.apply es) E with
        | nil => rw [hm] at h; cases h
        | cons a1 l =>
          rw [hm] at h
          cases l with
          | nil =>
            simp only [Except.ok.injEq, Prod.mk.injEq] at h
            rw [← h.2]
            simp
          | cons b l2 => cases h
      · rw [if_neg hx] at h
        cases x with
        | eof => cases h
        | str s =>
          dsimp only at h
          cases hop : OPS s with
          | some o =>
            rw [hop] at h
            dsimp only at h
            cases L with
            | true =>
              rw [if_pos rfl] at h
              by_cases hu : o.assoc = Assoc.u
              · rw [if_pos hu] at h
                have := ih rest w E (o :: O) true a r2 h
                simp only [List.length_cons]
                omega
              · rw [if_neg hu] at h; cases h
            | false =>
              rw [if_neg (show ¬(false = true) by simp)] at h
              have := ih rest w _ _ true a r2 h
              simp only [List.length_cons]
              omega
          | none =>
            rw [hop] at h
            dsimp only at h
            by_cases hpar : s = "("
            · rw [if_pos hpar] at h
              cases hsub : parseF f rest (.str ")") [] [] true with
              | error e => rw [hsub] at h; cases h
              | ok pr =>
                obtain ⟨sub, rest2⟩ := pr
                rw [hsub] at h
                have h1 := ih rest (.str ")") [] [] true sub rest2 hsub
                have h2 := ih rest2 w (sub :: E) O false a r2 h
                simp only [List.length_cons]
                omega
            · rw [if_neg hpar] at h
              have := ih rest w (.leaf s :: E) O false a r2 h
              simp only [List.length_cons]
              omega

lemma parseF_mono : ∀ (f g : Nat) (ts : List Token) (w : Token) (E : List Ast)
    (O : List Op) (L : Bool), ts.length ≤ f → ts.length ≤ g →
    parseF f ts w E O L = parseF g ts w E O L := by
  intro f
  induction f with
  | zero =>
    intro g ts w E O L hf _
    have h0 : ts = [] := List.length_eq_zero.mp (Nat.le_zero.mp hf)
    subst h0
    cases g with
    | zero => rfl
    | succ g => rw [parseF_zero, parseF_nil]
  | succ f ih =>
    intro g ts w E O L hf hg
    cases ts with
    | nil =>
      cases g with
      | zero => rw [parseF_zero, parseF_nil]
      | succ g => rw [parseF_nil, parseF_nil]
    | cons x rest =>
      have hg1 : 1 ≤ g := le_trans (by simp) hg
      obtain ⟨g, rfl⟩ : ∃ g2, g = g2 + 1 := ⟨g - 1, by omega⟩
      have hf2 : rest.length ≤ f := by simp only [List.length_cons] at hf; omega
      have hg2 : rest.length ≤ g := by simp only [List.length_cons] at hg; omega
      rw [parseF_cons, parseF_cons]
      by_cases hx : x = w
      · rw [if_pos hx, if_pos hx]
      · rw [if_neg hx, if_neg hx]
        cases x with
        | eof => rfl
        | str s =>
          dsimp only
          cases hop : OPS s with
          | some o =>
            dsimp only
            cases L with
            | true =>
              rw [if_pos rfl, if_pos rfl]
              by_cases hu : o.assoc = Assoc.u
              · rw [if_pos hu, if_pos hu, ih g rest w E (o :: O) true hf2 hg2]
              · rw [if_neg hu, if_neg hu]
            | false =>
              rw [if_neg (show ¬(false = true) by simp),
                if_neg (show ¬(false = true) by simp)]
              exact ih g rest w _ _ true hf2 hg2
          | none =>
            dsimp only
            by_cases hpar : s = "("
            · rw [if_pos hpar, if_pos hpar, ih g rest (.str ")") [] [] true hf2 hg2]
              cases hsub : parseF g rest (.str ")") [] [] true with
              | error e => rfl
              | ok pr =>
                obtain ⟨sub, rest2⟩ := pr
                have hlen : rest2.length < rest.length :=
                  parseF_consumed g rest _ [] [] true sub rest2 hsub
                exact ih g rest2 w (sub :: E) O false (by omega) (by omega)
            · rw [if_neg hpar, if_neg hpar]
              exact ih g rest w (.leaf s :: E) O false hf2 hg2

/-! ## `popLoop` and the pending-stack flush -/

lemma popLoop_stop (o : Op) (O : List Op) (E : List Ast)
    (h : ∀ p, O.head? = some p → p.left_first o = false) :
    popLoop o O E = (O, E) := by
  cases O with
  | nil => rfl
  | cons p ps =>
    show (if p.left_first o then popLoop o ps (p.apply E) else (p :: ps, E)) = _
    rw [if_neg (by simp [h p rfl])]

lemma popLoop_all (o : Op) (P : List Op) : ∀ (O : List Op) (E : List Ast),
    (∀ p ∈ P, p.left_first o = true) →
    popLoop o (P ++ O) E = popLoop o O (P.foldl (fun es o2 => o2.apply es) E) := by
  induction P with
  | nil => intro O E _; rfl
  | cons p ps ih =>
    intro O E hall
    show (if p.left_first o then popLoop o (ps ++ O) (p.apply E) else _) = _
    rw [if_pos (hall p (by simp))]
    exact ih O (p.apply E) (fun q hq => hall q (by simp [hq]))

lemma apply_one (x : Ast) (E : List Ast) :
    Op.apply opNeg (x :: E) = .node1 opNeg x :: E := rfl

lemma apply_two (o : Op) (hu : ¬o.assoc = Assoc.u) (x y : Ast) (E : List Ast) :
    Op.apply o (y :: x :: E) = .node2 o x y :: E := by
  unfold Op.apply Op.arity
  rw [if_neg (by simp [hu])]

lemma pend_flush : ∀ t : Ast, GoodB t = true → ∀ E : List Ast,
    (pendO t).foldl (fun es o => o.apply es) (pendE t ++ E) = t :: E := by
  intro t
  induction t with
  | leaf s => intro _ E; rfl
  | node0 o => intro hg; exact Bool.noConfusion (show false = true from hg)
  | node1 o a ih =>
    intro hg E
    obtain ⟨ho, hga⟩ := goodB_node1 hg
    subst ho
    rw [show pendO (.node1 opNeg a)
        = (if parenU opNeg a then [opNeg] else pendO a ++ [opNeg]) from rfl,
      show pendE (.node1 opNeg a) = (if parenU opNeg a then [a] else pendE a) from rfl]
    by_cases hp : parenU opNeg a
    · rw [if_pos hp, if_pos hp]
      show Op.apply opNeg (a :: E) = _
      rw [apply_one]
    · rw [if_neg hp, if_neg hp, List.foldl_append, ih hga E]
      show Op.apply opNeg (a :: E) = _
      rw [apply_one]
  | node2 o a b iha ihb =>
    intro hg E
    obtain ⟨hf, hga, hgb⟩ := goodB_node2 hg
    have hu : ¬o.assoc = Assoc.u := by
      rcases hf with rfl | rfl | rfl | rfl | rfl <;> decide
    rw [show pendO (.node2 o a b) = ((if parenR o b then [] else pendO b) ++ [o]) from rfl,
      show pendE (.node2 o a b) = ((if parenR o b then [b] else pendE b) ++ [a]) from rfl,
      List.foldl_append]
    by_cases hpr : parenR o b
    · rw [if_pos hpr, if_pos hpr]
      show Op.apply o (([b] ++ [a]) ++ E) = _
      rw [show ([b] ++ [a]) ++ E = b :: a :: E by simp, apply_two o hu a b E]
    · rw [if_neg hpr, if_neg hpr,
        show (pendE b ++ [a]) ++ E = pendE b ++ (a :: E) by simp, ihb hgb (a :: E)]
      show Op.apply o (b :: a :: E) = _
      rw [apply_two o hu a b E]

/-! ## Precedence-order facts -/

lemma left_first_iff (s o : Op) : s.left_first o = true ↔
    (s.prec > o.prec ∨ (s.prec = o.prec ∧ o.assoc = Assoc.l)) := by
  simp [Op.left_first, Bool.or_eq_true, Bool.and_eq_true, decide_eq_true_eq]

lemma left_first_false_iff (s o : Op) : s.left_first o = false ↔
    ¬(s.prec > o.prec ∨ (s.prec = o.prec ∧ o.assoc = Assoc.l)) := by
  rw [← left_first_iff]
  cases h : s.left_first o <;> simp

lemma lf_chain (A B C : Op) (h1 : A.left_first B = true) (h2 : A.left_first C = false) :
    C.left_first B = true := by
  rw [left_first_iff] at h1 ⊢
  rw [left_first_false_iff] at h2
  push_neg at h2
  rcases h1 with h1 | ⟨h1a, h1b⟩
  · exact Or.inl (by omega)
  · rcases Nat.lt_or_ge A.prec C.prec with hlt | hge
    · exact Or.inl (by omega)
    · exact Or.inr ⟨by omega, h1b⟩

lemma lf_chain2 (Q B A : Op) (h1 : Q.left_first B = true)
    (h2 : A.left_first B = false) : A.left_first Q = false := by
  rw [left_first_iff] at h1
  rw [left_first_false_iff] at h2 ⊢
  push_neg at h2
  intro hcon
  rcases h1 with h1 | ⟨h1a, h1b⟩
  · rcases hcon with hc | ⟨hc, _⟩ <;> omega
  · have hne : A.prec ≠ B.prec := fun he => h2.2 he h1b
    rcases hcon with hc | ⟨hc, _⟩ <;> omega

lemma lf_neg_five : ∀ o1 ∈ [opAdd, opSub, opMul, opDiv, opPow],
    ∀ o ∈ [opAdd, opSub, opMul, opDiv, opPow],
    o1.left_first o = true → opNeg.left_first o = true := by decide

lemma five_mem {o : Op}
    (hf : o = opAdd ∨ o = opSub ∨ o = opMul ∨ o = opDiv ∨ o = opPow) :
    o ∈ [opAdd, opSub, opMul, opDiv, opPow] := by
  rcases hf with rfl | rfl | rfl | rfl | rfl <;> simp

lemma pendO_headOp_none : ∀ a : Ast, a.headOp = none → pendO a = [] := by
  intro a h
  cases a with
  | leaf s => rfl
  | node0 o => cases h
  | node1 o x => cases h
  | node2 o x y => cases h

lemma leftB_headOp_none : ∀ a : Ast, a.headOp = none → leftB a = [] := by
  intro a h
  cases a with
  | leaf s => rfl
  | node0 o => cases h
  | node1 o x => cases h
  | node2 o x y => cases h

/-- Every pending operator of a chunk pops when an operator `o` arrives
for which the chunk's head operator pops. -/
lemma pend_lf : ∀ t : Ast, GoodB t = true → ∀ hr : Op, Ast.headOp t = some hr →
    ∀ o : Op, (o = opAdd ∨ o = opSub ∨ o = opMul ∨ o = opDiv ∨ o = opPow) →
    hr.left_first o = true → ∀ p ∈ pendO t, p.left_first o = true := by
  intro t
  induction t with
  | leaf s => intro _ hr h; cases h
  | node0 o => intro hg; exact Bool.noConfusion (show false = true from hg)
  | node1 o1 a ih =>
    intro hg hr hhr o hfo hlf p hp
    obtain ⟨ho, hga⟩ := goodB_node1 hg
    subst ho
    have hr1 : hr = opNeg := by
      have : some opNeg = some hr := hhr
      exact (Option.some.injEq _ _ ▸ this).symm
    subst hr1
    rw [show pendO (.node1 opNeg a)
        = (if parenU opNeg a then [opNeg] else pendO a ++ [opNeg]) from rfl] at hp
    by_cases hpp : parenU opNeg a
    · rw [if_pos hpp] at hp
      rcases List.mem_singleton.mp hp with rfl
      exact hlf
    · have hpp2 : parenU opNeg a = false := by simpa using hpp
      rw [if_neg hpp] at hp
      rcases List.mem_append.mp hp with hp | hp
      · cases hha : a.headOp with
        | none => rw [pendO_headOp_none a hha] at hp; cases hp
        | some q =>
          have hlf2 : opNeg.left_first q = false := by
            have h2 := hpp2
            unfold parenU at h2
            rw [hha] at h2
            exact h2
          exact ih hga q hha o hfo (lf_chain opNeg o q hlf hlf2) p hp
      · rcases List.mem_singleton.mp hp with rfl
        exact hlf
  | node2 o1 a b iha ihb =>
    intro hg hr hhr o hfo hlf p hp
    obtain ⟨hf1, hga, hgb⟩ := goodB_node2 hg
    have hr1 : o1 = hr := by
      have h2 : (some o1 : Option Op) = some hr := hhr
      exact Option.some.injEq _ _ ▸ h2
    subst hr1
    rw [show pendO (.node2 o1 a b)
        = ((if parenR o1 b then [] else pendO b) ++ [o1]) from rfl] at hp
    rcases List.mem_append.mp hp with hp | hp
    · by_cases hpr : parenR o1 b
      · rw [if_pos hpr] at hp; cases hp
      · have hpr2 : parenR o1 b = false := by simpa using hpr
        rw [if_neg hpr] at hp
        cases b with
        | leaf s => cases hp
        | node0 u => exact absurd hgb (by exact fun h => Bool.noConfusion h)
        | node1 u z =>
          obtain ⟨hu, hgz⟩ := goodB_node1 hgb
          subst hu
          have hneg : opNeg.left_first o = true :=
            lf_neg_five o1 (five_mem hf1) o (five_mem hfo) hlf
          exact ihb hgb opNeg rfl o hfo hneg p hp
        | node2 pb x y =>
          have hlf2 : o1.left_first pb = false := by
            have h2 := hpr2
            unfold parenR at h2
            exact h2
          exact ihb hgb pb rfl o hfo (lf_chain o1 o pb hlf hlf2) p hp
    · rcases List.mem_singleton.mp hp with rfl
      exact hlf

/-- Boundary operators of a chunk are blocked by any operator below the
chunk that does not pop for the chunk's head operator. -/
lemma leftB_blocked : ∀ t : Ast, GoodB t = true → ∀ hr : Op, Ast.headOp t = some hr →
    ∀ o2 : Op, o2.left_first hr = false → ∀ p ∈ leftB t, o2.left_first p = false := by
  intro t
  induction t with
  | leaf s => intro _ hr h; cases h
  | node0 o => intro hg; exact Bool.noConfusion (show false = true from hg)
  | node1 o1 a ih =>
    intro hg hr hhr o2 hb p hp
    cases hp
  | node2 o1 a b iha ihb =>
    intro hg hr hhr o2 hb p hp
    obtain ⟨hf1, hga, hgb⟩ := goodB_node2 hg
    have hr1 : o1 = hr := by
      have h2 : (some o1 : Option Op) = some hr := hhr
      exact Option.some.injEq _ _ ▸ h2
    subst hr1
    rw [show leftB (.node2 o1 a b) = ((if parenL o1 a then [] else leftB a) ++ [o1])
      from rfl] at hp
    rcases List.mem_append.mp hp with hp | hp
    · by_cases hpl : parenL o1 a
      · rw [if_pos hpl] at hp; cases hp
      · have hpl2 : parenL o1 a = false := by simpa using hpl
        rw [if_neg hpl] at hp
        cases hha : a.headOp with
        | none => rw [leftB_headOp_none a hha] at hp; cases hp
        | some q =>
          have hq : q.left_first o1 = true := by
            have h2 := hpl2
            unfold parenL at h2
            rw [hha] at h2
            simpa using h2
          exact iha hga q hha o2 (lf_chain2 q o1 o2 hq hb) p hp
    · rcases List.mem_singleton.mp hp with rfl
      exact hb

def GuardP (O : List Op) (t : Ast) : Prop :=
  ∀ o2 ∈ leftB t, ∀ h : Op, O.head? = some h → h.left_first o2 = false

lemma w_ne_str (w : Token) (hw : w = Token.eof ∨ w = Token.str ")") (s : String)
    (hs : s ≠ ")") : Token.str s ≠ w := by
  rcases hw with rfl | rfl
  · intro h; cases h
  · intro h
    injection h with h2
    exact hs h2

lemma opTxt_ne_rpar (o : Op)
    (hf : o = opAdd ∨ o = opSub ∨ o = opMul ∨ o = opDiv ∨ o = opPow) :
    opTxt o ≠ ")" := by
  rcases hf with rfl | rfl | rfl | rfl | rfl
  · rw [opTxt_add]; decide
  · rw [opTxt_sub]; decide
  · rw [opTxt_mul]; decide
  · rw [opTxt_div]; decide
  · rw [opTxt_pow]; decide

lemma goodLeaf_not_paren (s : String) (h : GoodLeaf s = true) : s ≠ "(" ∧ s ≠ ")" := by
  constructor <;> rintro rfl <;>
    exact Bool.noConfusion (show false = true from (goodLeaf_parts h).1)

set_option maxHeartbeats 1600000 in
/-- The shunting-yard loop consumes the token stream of one Good chunk
and leaves its pending operand and operator stacks on top of the
incoming ones. -/
lemma parseRun : ∀ t : Ast, GoodB t = true →
    ∀ w : Token, (w = Token.eof ∨ w = Token.str ")") →
    ∀ (E : List Ast) (O : List Op) (rest : List Token) (fuel : Nat),
    GuardP O t → (toks t).length + rest.length ≤ fuel →
    parseF fuel (toks t ++ rest) w E O true
      = parseF rest.length rest w (pendE t ++ E) (pendO t ++ O) false := by
  intro t
  induction t with
  | leaf s =>
    intro hg w hw E O rest fuel hguard hfuel
    rw [show toks (.leaf s) = [Token.str s] from rfl] at hfuel ⊢
    obtain ⟨f, rfl⟩ : ∃ f, fuel = f + 1 := ⟨fuel - 1, by
      simp only [List.length_cons] at hfuel; omega⟩
    rw [show ([Token.str s] : List Token) ++ rest = Token.str s :: rest from rfl,
      parseF_step_leaf f s rest w E O true
        (w_ne_str w hw s (goodLeaf_not_paren s hg).2) (goodLeaf_parts hg).2.1
        (goodLeaf_not_paren s hg).1]
    exact parseF_mono f rest.length rest w (Ast.leaf s :: E) O false
      (by simp only [List.length_cons] at hfuel; omega) (le_refl _)
  | node0 o =>
    intro hg
    exact Bool.noConfusion (show false = true from hg)
  | node1 o a ih =>
    intro hg w hw E O rest fuel hguard hfuel
    obtain ⟨ho, hga⟩ := goodB_node1 hg
    subst ho
    rw [show toks (.node1 opNeg a)
        = Token.str opNeg.op ::
            (if parenU opNeg a then Token.str "(" :: toks a ++ [Token.str ")"] else toks a)
        from rfl] at hfuel ⊢
    obtain ⟨f, rfl⟩ : ∃ f, fuel = f + 1 := ⟨fuel - 1, by
      simp only [List.length_cons] at hfuel; omega⟩
    rw [show (Token.str opNeg.op ::
          (if parenU opNeg a then Token.str "(" :: toks a ++ [Token.str ")"] else toks a)) ++ rest
        = Token.str "-" ::
            ((if parenU opNeg a then Token.str "(" :: toks a ++ [Token.str ")"] else toks a) ++ rest)
        by simp [opNeg],
      parseF_step_uop f _ w E O (w_ne_str w hw "-" (by decide))]
    rw [show pendE (.node1 opNeg a) = (if parenU opNeg a then [a] else pendE a) from rfl,
      show pendO (.node1 opNeg a)
        = (if parenU opNeg a then [opNeg] else pendO a ++ [opNeg]) from rfl]
    by_cases hp : parenU opNeg a
    · simp only [hp, reduceIte] at hfuel ⊢
      rw [show (Token.str "(" :: toks a ++ [Token.str ")"]) ++ rest
          = Token.str "(" :: (toks a ++ (Token.str ")" :: rest)) by simp]
      obtain ⟨f2, rfl⟩ : ∃ f2, f = f2 + 1 := ⟨f - 1, by
        simp only [List.length_cons, List.length_append] at hfuel; omega⟩
      rw [parseF_step_open f2 _ w E (opNeg :: O) true (w_ne_str w hw "(" (by decide))]
      rw [ih hga (.str ")") (Or.inr rfl) [] [] (Token.str ")" :: rest) f2
        (fun o2 _ h hh => Option.noConfusion hh)
        (by simp only [List.length_cons, List.length_append] at hfuel ⊢; omega)]
      simp only [List.append_nil]
      have hfold : (pendO a).foldl (fun es o => o.apply es) (pendE a) = [a] := by
        have h1 := pend_flush a hga []
        rwa [List.append_nil] at h1
      rw [show (Token.str ")" :: rest).length = rest.length + 1 from rfl]
      rw [parseF_wait_ok rest.length (.str ")") rest (.str ")") (pendE a) (pendO a)
        false a rfl hfold]
      dsimp only
      exact parseF_mono f2 rest.length rest w (a :: E) (opNeg :: O) false
        (by simp only [List.length_cons, List.length_append] at hfuel; omega) (le_refl _)
    · have hp2 : parenU opNeg a = false := by simpa using hp
      simp only [hp2, Bool.false_eq_true, if_false] at hfuel ⊢
      have hguard2 : GuardP (opNeg :: O) a := by
        intro o2 ho2 h hh
        have hh2 : opNeg = h := by
          have h3 : (some opNeg : Option Op) = some h := hh
          exact Option.some.injEq _ _ ▸ h3
        subst hh2
        cases hha : a.headOp with
        | none => rw [leftB_headOp_none a hha] at ho2; cases ho2
        | some q =>
          have hlf2 : opNeg.left_first q = false := by
            have h2 := hp2
            unfold parenU at h2
            rw [hha] at h2
            exact h2
          exact leftB_blocked a hga q hha opNeg hlf2 o2 ho2
      rw [ih hga w hw E (opNeg :: O) rest f hguard2
        (by simp only [List.length_cons] at hfuel; omega)]
      rw [show (pendO a ++ [opNeg]) ++ O = pendO a ++ (opNeg :: O) by simp]
  | node2 o a b iha ihb =>
    intro hg w hw E O rest fuel hguard hfuel
    obtain ⟨hf, hga, hgb⟩ := goodB_node2 hg
    rw [show toks (.node2 o a b)
        = (if parenL o a then Token.str "(" :: toks a ++ [Token.str ")"] else toks a)
          ++ Token.str (opTxt o)
          :: (if parenR o b then Token.str "(" :: toks b ++ [Token.str ")"] else toks b)
        from rfl] at hfuel ⊢
    rw [show pendE (.node2 o a b) = ((if parenR o b then [b] else pendE b) ++ [a]) from rfl,
      show pendO (.node2 o a b) = ((if parenR o b then [] else pendO b) ++ [o]) from rfl]
    have hoin : o ∈ leftB (.node2 o a b) := by
      rw [show leftB (.node2 o a b) = ((if parenL o a then [] else leftB a) ++ [o])
        from rfl]
      simp
    have hstop : ∀ p, O.head? = some p → p.left_first o = false :=
      fun p hp => hguard o hoin p hp
    have hwop : Token.str (opTxt o) ≠ w := w_ne_str w hw (opTxt o) (opTxt_ne_rpar o hf)
    -- the right-hand part, shared by both left paths
    have hright : ∀ fuel2 : Nat,
        ((if parenR o b then Token.str "(" :: toks b ++ [Token.str ")"] else toks b) ++ rest).length
          ≤ fuel2 →
        parseF fuel2
            ((if parenR o b then Token.str "(" :: toks b ++ [Token.str ")"] else toks b) ++ rest)
            w (a :: E) (o :: O) true
          = parseF rest.length rest w
              (((if parenR o b then [b] else pendE b) ++ [a]) ++ E)
              (((if parenR o b then [] else pendO b) ++ [o]) ++ O) false := by
      intro fuel2 hfuel2
      by_cases hpr : parenR o b
      · simp only [hpr, reduceIte] at hfuel2 ⊢
        rw [show (Token.str "(" :: toks b ++ [Token.str ")"]) ++ rest
            = Token.str "(" :: (toks b ++ (Token.str ")" :: rest)) by simp]
        obtain ⟨f3, rfl⟩ : ∃ f3, fuel2 = f3 + 1 := ⟨fuel2 - 1, by
          simp only [List.length_cons, List.length_append] at hfuel2; omega⟩
        rw [parseF_step_open f3 _ w (a :: E) (o :: O) true (w_ne_str w hw "(" (by decide))]
        rw [ihb hgb (.str ")") (Or.inr rfl) [] [] (Token.str ")" :: rest) f3
          (fun o2 _ h hh => Option.noConfusion hh)
          (by simp only [List.length_cons, List.length_append] at hfuel2 ⊢; omega)]
        simp only [List.append_nil]
        have hfold : (pendO b).foldl (fun es o => o.apply es) (pendE b) = [b] := by
          have h1 := pend_flush b hgb []
          rwa [List.append_nil] at h1
        rw [show (Token.str ")" :: rest).length = rest.length + 1 from rfl]
        rw [parseF_wait_ok rest.length (.str ")") rest (.str ")") (pendE b) (pendO b)
          false b rfl hfold]
        dsimp only
        exact parseF_mono f3 rest.length rest w (b :: a :: E) (o :: O) false
          (by simp only [List.length_cons, List.length_append] at hfuel2; omega) (le_refl _)
      · have hpr2 : parenR o b = false := by simpa using hpr
        simp only [hpr2, Bool.false_eq_true, if_false] at hfuel2 ⊢
        have hguard3 : GuardP (o :: O) b := by
          intro o2 ho2 h hh
          have hh2 : o = h := by
            have h3 : (some o : Option Op) = some h := hh
            exact Option.some.injEq _ _ ▸ h3
          subst hh2
          cases b with
          | leaf s => cases ho2
          | node0 u => exact Bool.noConfusion (show false = true from hgb)
          | node1 u z => cases ho2
          | node2 pb x y =>
            have hlf2 : o.left_first pb = false := by
              have h2 := hpr2
              unfold parenR at h2
              exact h2
            exact leftB_blocked (.node2 pb x y) hgb pb rfl o hlf2 o2 ho2
        rw [ihb hgb w hw (a :: E) (o :: O) rest fuel2 hguard3
          (by simp only [List.length_append] at hfuel2; omega)]
        rw [show (pendE b ++ [a]) ++ E = pendE b ++ (a :: E) by simp,
          show (pendO b ++ [o]) ++ O = pendO b ++ (o :: O) by simp]
    by_cases hpl : parenL o a
    · simp only [hpl, reduceIte] at hfuel ⊢
      rw [show ((Token.str "(" :: toks a ++ [Token.str ")"])
            ++ Token.str (opTxt o)
            :: ((if parenR o b then Token.str "(" :: toks b ++ [Token.str ")"] else toks b))) ++ rest
          = Token.str "(" :: (toks a ++ (Token.str ")" ::
              (Token.str (opTxt o) ::
                ((if parenR o b then Token.str "(" :: toks b ++ [Token.str ")"] else toks b)
                  ++ rest)))) by simp]
      obtain ⟨f2, rfl⟩ : ∃ f2, fuel = f2 + 1 := ⟨fuel - 1, by
        simp only [List.length_cons, List.length_append] at hfuel; omega⟩
      rw [parseF_step_open f2 _ w E O true (w_ne_str w hw "(" (by decide))]
      rw [iha hga (.str ")") (Or.inr rfl) [] []
        (Token.str ")" :: (Token.str (opTxt o) ::
          ((if parenR o b then Token.str "(" :: toks b ++ [Token.str ")"] else toks b) ++ rest))) f2
        (fun o2 _ h hh => Option.noConfusion hh)
        (by simp only [List.length_cons, List.length_append] at hfuel ⊢; omega)]
      simp only [List.append_nil]
      have hfold : (pendO a).foldl (fun es o => o.apply es) (pendE a) = [a] := by
        have h1 := pend_flush a hga []
        rwa [List.append_nil] at h1
      rw [show (Token.str ")" :: (Token.str (opTxt o) ::
          ((if parenR o b then Token.str "(" :: toks b ++ [Token.str ")"] else toks b) ++ rest))).length
          = (Token.str (opTxt o) ::
              ((if parenR o b then Token.str "(" :: toks b ++ [Token.str ")"] else toks b)
                ++ rest)).length + 1 from rfl]
      rw [parseF_wait_ok _ (.str ")") _ (.str ")") (pendE a) (pendO a) false a rfl hfold]
      dsimp only
      have hlen2 : (Token.str (opTxt o) ::
          ((if parenR o b then Token.str "(" :: toks b ++ [Token.str ")"] else toks b) ++ rest)).length
          ≤ f2 := by
        simp only [List.length_cons, List.length_append] at hfuel ⊢
        omega
      rw [parseF_mono f2
        (Token.str (opTxt o) ::
          ((if parenR o b then Token.str "(" :: toks b ++ [Token.str ")"] else toks b) ++ rest)).length
        _ w (a :: E) O false hlen2 (le_refl _)]
      rw [show (Token.str (opTxt o) ::
          ((if parenR o b then Token.str "(" :: toks b ++ [Token.str ")"] else toks b) ++ rest)).length
          = ((if parenR o b then Token.str "(" :: toks b ++ [Token.str ")"] else toks b) ++ rest).length
            + 1 from rfl]
      rw [parseF_step_five _ _ w (a :: E) O o hf hwop]
      rw [popLoop_stop o O (a :: E) hstop]
      exact hright _ (le_refl _)
    · have hpl2 : parenL o a = false := by simpa using hpl
      simp only [hpl2, Bool.false_eq_true, if_false] at hfuel ⊢
      have hguard4 : GuardP O a := by
        intro o2 ho2 h hh
        refine hguard o2 ?_ h hh
        rw [show leftB (.node2 o a b) = ((if parenL o a then [] else leftB a) ++ [o])
          from rfl]
        simp only [hpl2, Bool.false_eq_true, if_false]
        exact List.mem_append.mpr (Or.inl ho2)
      rw [show (toks a ++ Token.str (opTxt o)
            :: ((if parenR o b then Token.str "(" :: toks b ++ [Token.str ")"] else toks b))) ++ rest
          = toks a ++ (Token.str (opTxt o) ::
              ((if parenR o b then Token.str "(" :: toks b ++ [Token.str ")"] else toks b) ++ rest))
          by simp]
      rw [iha hga w hw E O
        (Token.str (opTxt o) ::
          ((if parenR o b then Token.str "(" :: toks b ++ [Token.str ")"] else toks b) ++ rest))
        fuel hguard4
        (by simp only [List.length_cons, List.length_append] at hfuel ⊢; omega)]
      rw [show (Token.str (opTxt o) ::
          ((if parenR o b then Token.str "(" :: toks b ++ [Token.str ")"] else toks b) ++ rest)).length
          = ((if parenR o b then Token.str "(" :: toks b ++ [Token.str ")"] else toks b) ++ rest).length
            + 1 from rfl]
      rw [parseF_step_five _ _ w (pendE a ++ E) (pendO a ++ O) o hf hwop]
      have hall : ∀ p ∈ pendO a, p.left_first o = true := by
        cases hha : a.headOp with
        | none => rw [pendO_headOp_none a hha]; intro p hp; cases hp
        | some q =>
          have hq : q.left_first o = true := by
            have h2 := hpl2
            unfold parenL at h2
            rw [hha] at h2
            simpa using h2
          exact pend_lf a hga q hha o hf hq
      have hpop : popLoop o (pendO a ++ O) (pendE a ++ E) = (O, a :: E) := by
        rw [popLoop_all o (pendO a) O (pendE a ++ E) hall, pend_flush a hga E,
          popLoop_stop o O (a :: E) hstop]
      rw [hpop]
      exact hright _ (le_refl _)

/-- C3 counterexample: the printer emits "√4" for the square-root node
(√ is not in the lexer's operator alphabet), and re-parsing yields the
single leaf "√4", not the original tree. -/
theorem C3_counterexample_sqrt_leaf :
    unparse (Ast.node1 opSqrt (Ast.leaf "4")) = some "√4"
    ∧ to_ast "√4" = Except.ok (Ast.leaf "√4")
    ∧ Ast.leaf "√4" ≠ Ast.node1 opSqrt (Ast.leaf "4") := by
  refine ⟨by decide, by decide, by decide⟩

/-- C3 amended: over the operator set the printer/lexer agree on
({+,-,*,/,^} and unary minus) and leaves that re-lex as themselves,
pretty-printing and re-parsing is the identity. -/
theorem C3_amended_roundtrip (t : Ast) (h : GoodB t = true) :
    ∃ s, unparse t = some s ∧ to_ast s = Except.ok t := by
  obtain ⟨s, hs⟩ := unparse_some t h
  refine ⟨s, hs, ?_⟩
  have hlex : lex s = toks t ++ [Token.eof] := lex_good t s h hs
  have hrun : parseF (lex s).length (lex s) Token.eof [] [] true
      = parseF [Token.eof].length [Token.eof] Token.eof
          (pendE t ++ []) (pendO t ++ []) false := by
    rw [hlex]
    exact parseRun t h Token.eof (Or.inl rfl) [] [] [Token.eof]
      (toks t ++ [Token.eof]).length (fun o2 _ h2 hh => Option.noConfusion hh)
      (by simp)
  have hfold : (pendO t).foldl (fun es o => o.apply es) (pendE t) = [t] := by
    have h1 := pend_flush t h []
    rwa [List.append_nil] at h1
  have hfin : parseF [Token.eof].length [Token.eof] Token.eof
      (pendE t ++ []) (pendO t ++ []) false = Except.ok (t, []) := by
    simp only [List.append_nil]
    exact parseF_wait_ok 0 Token.eof [] Token.eof (pendE t) (pendO t) false t rfl hfold
  have hdef : to_ast s
      = (parseF (lex s).length (lex s) Token.eof [] [] true).map (fun r => r.1) := rfl
  rw [hdef, hrun, hfin]
  rfl

/-- C3 amended witness: a concrete Good tree round-trips. -/
theorem C3_amended_witness :
    GoodB (Ast.node2 opAdd (Ast.node2 opMul (Ast.leaf "x") (Ast.leaf "y"))
      (Ast.node1 opNeg (Ast.node2 opPow (Ast.leaf "z") (Ast.leaf "w")))) = true
    ∧ ∃ s, unparse (Ast.node2 opAdd (Ast.node2 opMul (Ast.leaf "x") (Ast.leaf "y"))
        (Ast.node1 opNeg (Ast.node2 opPow (Ast.leaf "z") (Ast.leaf "w")))) = some s
      ∧ to_ast s = Except.ok (Ast.node2 opAdd
          (Ast.node2 opMul (Ast.leaf "x") (Ast.leaf "y"))
          (Ast.node1 opNeg (Ast.node2 opPow (Ast.leaf "z") (Ast.leaf "w")))) :=
  ⟨by decide, C3_amended_roundtrip _ (by decide)⟩

